import Mathlib

/-!
# Verification of the pdf-whisper-connect analysis engine

Shallow embedding of `src/components/PDFProcessor.tsx`: the font-size based
heading classifier (`extractPDFOutline`), the keyword/context relevance scorer
(`calculateEnhancedRelevanceScore`, `extractKeywords`, `calculateContextBonus`),
the section segmenter (`extractMeaningSections`) and the persona aggregation
pipeline (`analyzeDocumentsForPersona`).

Modelling conventions:
* JavaScript strings are modelled as `List Char`; the character classes used by
  the code's regular expressions (`\s`, `\w`, `[.!?]`, `[A-Z]`) are modelled on
  their ASCII ranges.
* JavaScript numbers are modelled as `ℚ` (all quantities the code computes are
  finite decimal fractions); `Math.round` is `⌊x + 1/2⌋`.
* Decoder calls that may throw (`file.arrayBuffer`, `getDocument`, `getPage`,
  `getTextContent`, `getMetadata`) are modelled as `Except Unit` values carried
  by the input; `await Promise.all` over them is `seqE`, which fails exactly
  when some element fails, matching promise-rejection propagation.
* `Array.prototype.sort` is stable (ES2019); it is modelled by a stable
  insertion sort `sSortBy`.
-/

/- Batteries marks the arithmetic on `Rat` irreducible, which blocks the
elaborator-side evaluation `decide` performs; restore the default so that
concrete runs of the embedded pipeline can be checked by `decide`. -/
attribute [local semireducible] Rat.add Rat.mul Rat.inv Rat.ofScientific

/-- ASCII word character, the `\w` class of JavaScript regexps:
`[A-Za-z0-9_]`. -/
def isWordChar (c : Char) : Bool :=
  (48 ≤ c.toNat && c.toNat ≤ 57) || (65 ≤ c.toNat && c.toNat ≤ 90) ||
    (97 ≤ c.toNat && c.toNat ≤ 122) || c.toNat == 95

/-- Whitespace, the `\s` class of JavaScript regexps (ASCII part):
space, tab, newline, carriage return, vertical tab, form feed. -/
def isWs (c : Char) : Bool :=
  c.toNat == 32 || c.toNat == 9 || c.toNat == 10 || c.toNat == 13 ||
    c.toNat == 11 || c.toNat == 12

/-- Sentence-ending characters, the class `[.!?]` used by the code's
sentence splitting regexps. -/
def isSentEnd (c : Char) : Bool :=
  c.toNat == 46 || c.toNat == 33 || c.toNat == 63

/-- `String.prototype.toLowerCase` on one character (ASCII range). -/
def lowerChar (c : Char) : Char :=
  if h : 65 ≤ c.toNat ∧ c.toNat ≤ 90 then
    Char.ofNatAux (c.toNat + 32) (Or.inl (by omega))
  else c

/-- `String.prototype.toLowerCase` (ASCII range). -/
def lowerStr (s : List Char) : List Char := s.map lowerChar

/-- `String.prototype.trim`: strip leading and trailing whitespace. -/
def trimWs (s : List Char) : List Char :=
  ((s.dropWhile isWs).reverse.dropWhile isWs).reverse

/-- Worker for `splitRuns`.  The state is `some acc` while a fragment (held
reversed in `acc`) is being accumulated, and `none` while scanning the inside
of a separator run (the fragment before it has been emitted). -/
def splitRunsGo (p : Char → Bool) : List Char → Option (List Char) → List (List Char)
  | [], none => [[]]
  | [], some acc => [acc.reverse]
  | c :: cs, none =>
    if p c then splitRunsGo p cs none else splitRunsGo p cs (some [c])
  | c :: cs, some acc =>
    if p c then acc.reverse :: splitRunsGo p cs none
    else splitRunsGo p cs (some (c :: acc))

/-- `String.prototype.split` with a separator regexp matching maximal runs of
characters satisfying `p` (the code uses `/\s+/` and `/[.!?]+/`).  Faithful to
JavaScript: leading/trailing separators produce empty fragments, and the empty
string splits to `[""]`. -/
def splitRuns (p : Char → Bool) (s : List Char) : List (List Char) :=
  splitRunsGo p s (some [])

/-- `String.prototype.slice(a, b)` for `0 ≤ a ≤ b` (the code's window
arithmetic clamps the bounds itself). -/
def strSlice (s : List Char) (a b : Nat) : List Char := (s.drop a).take (b - a)

/-- `String.prototype.includes`: substring test. -/
def containsSub (hay needle : List Char) : Bool :=
  (List.range (hay.length + 1)).any fun i => needle.isPrefixOf (hay.drop i)

/-- Whether the regexp `\b k \b` (with `k` a nonempty word-character string)
matches `t` at position `i`: `k` is a prefix of `t.drop i` and the characters
adjacent to the match (when they exist) are not word characters. -/
def isOccAt (t k : List Char) (i : Nat) : Bool :=
  k.isPrefixOf (t.drop i) &&
    (i == 0 || !isWordChar (t.getD (i - 1) ' ')) &&
    (t.length ≤ i + k.length || !isWordChar (t.getD (i + k.length) ' '))

/-- All match positions of `\b k \b` in `t`, ascending.  For a word-character
pattern, word-boundary matches can never overlap, so the global-flag regexp
iteration of the source (`text.match(regex)` / `regex.exec` loop) visits
exactly these positions. -/
def occPositions (t k : List Char) : List Nat :=
  (List.range (t.length + 1)).filter fun i => isOccAt t k i

/-- `(lowerText.match(new RegExp('\\b' + keyword + '\\b', 'gi')) || []).length`. -/
def countOcc (t k : List Char) : Nat := (occPositions t k).length

/-- The `±100`-character context window the code builds around a match at
position `i` (`text.slice(max(0, i-100), min(len, i + k.len + 100)).toLowerCase()`). -/
def ctxWindow (t k : List Char) (i : Nat) : List Char :=
  lowerStr (strSlice t (i - 100) (min t.length (i + k.length + 100)))

/-- `calculateContextBonus(text, keyword, allKeywords)` from the source:
for every match occurrence and every *other* keyword appearing in the
occurrence's context window, add `0.05`; cap the total at `0.3`. -/
def calculateContextBonus (t k : List Char) (allKeywords : List (List Char)) : ℚ :=
  min (0.05 * ((occPositions t k).map fun i =>
    ((allKeywords.filter fun o => !(o == k) && containsSub (ctxWindow t k i) o).length : ℚ)).sum) 0.3

/-- The stop-word list of `extractKeywords`. -/
def stopWords : List (List Char) :=
  ["the", "a", "an", "and", "or", "but", "in", "on", "at", "to", "for", "of",
   "with", "by", "is", "are", "was", "were", "be", "been", "being", "have",
   "has", "had", "do", "does", "did", "will", "would", "could", "should",
   "may", "might", "must", "can", "shall"].map String.toList

/-- `extractKeywords(text)` from the source: split on whitespace, keep tokens
longer than 2 that are not stop words, strip non-word characters
(`word.replace(/[^\w]/g, '')`), keep results longer than 2. -/
def extractKeywords (t : List Char) : List (List Char) :=
  (((splitRuns isWs t).filter fun w => 2 < w.length && !(stopWords.contains w)).map
    fun w => w.filter isWordChar).filter fun w => 2 < w.length

/-- The professional/academic vocabulary of `calculateEnhancedRelevanceScore`. -/
def professionalTerms : List (List Char) :=
  ["analysis", "research", "study", "method", "approach", "results",
   "conclusion", "data", "findings"].map String.toList

/-- `calculateEnhancedRelevanceScore(text, persona, jobToBeDone)` from the
source: weighted whole-word keyword densities (0.8 persona, 1.2 job) plus
context bonuses (job bonus scaled by 1.2) plus 0.1 per professional term
present, the sum clamped from above by 1. -/
def calculateEnhancedRelevanceScore (text persona jobToBeDone : List Char) : ℚ :=
  let lowerText := lowerStr text
  let personaKeywords := extractKeywords (lowerStr persona)
  let jobKeywords := extractKeywords (lowerStr jobToBeDone)
  let totalWords := (splitRuns isWs lowerText).length
  if totalWords = 0 then 0 else
  let allKeywords := personaKeywords ++ jobKeywords
  let s :=
    (personaKeywords.map fun k =>
      if 2 < k.length then
        (countOcc lowerText k : ℚ) / (totalWords : ℚ) * 0.8 +
          calculateContextBonus lowerText k allKeywords
      else 0).sum +
    (jobKeywords.map fun k =>
      if 2 < k.length then
        (countOcc lowerText k : ℚ) / (totalWords : ℚ) * 1.2 +
          calculateContextBonus lowerText k allKeywords * 1.2
      else 0).sum +
    (professionalTerms.map fun term =>
      if containsSub lowerText term then (0.1 : ℚ) else 0).sum
  min s 1

/-! ## Data model (the output interfaces of `PDFProcessor.tsx`) -/

deriving instance DecidableEq for Except

/-- One text item of `page.getTextContent().items`: glyph-run string plus its
rendered height (the code's font-size proxy). -/
structure TextItem where
  str : List Char
  height : ℚ
deriving DecidableEq

/-- `OutlineItem` of the source, with `level` numeric: `H1 ↦ 1`, `H2 ↦ 2`,
`H3 ↦ 3`. -/
structure OutlineItem where
  level : Nat
  text : List Char
  page : Nat
deriving DecidableEq

/-- `PDFOutline` of the source. -/
structure PDFOutline where
  title : List Char
  outline : List OutlineItem
deriving DecidableEq

/-- The decoder-facing view of one document in the outline path: file name,
the metadata title (`pdf.getMetadata()`, which may throw, and whose `Title`
may be absent), and the per-page text content, each page a decoder call that
may throw. -/
structure ODoc where
  name : List Char
  metaTitle : Except Unit (Option (List Char))
  pages : List (Except Unit (List TextItem))
deriving DecidableEq

/-- An element of `PersonaAnalysis.extractedSections`. -/
structure ExtractedSection where
  document : List Char
  pageNumber : Nat
  sectionTitle : List Char
  importanceRank : ℤ
deriving DecidableEq

/-- An element of `PersonaAnalysis.subSectionAnalysis`. -/
structure SubSection where
  document : List Char
  refinedText : List Char
  pageNumber : Nat
deriving DecidableEq

/-- `PersonaAnalysis.metadata` (the run timestamp, an environment read, is
outside the model). -/
structure AnalysisMetadata where
  documents : List (List Char)
  persona : List Char
  jobToBeDone : List Char
deriving DecidableEq

/-- `PersonaAnalysis` of the source. -/
structure PersonaAnalysis where
  metadata : AnalysisMetadata
  extractedSections : List ExtractedSection
  subSectionAnalysis : List SubSection
deriving DecidableEq

/-- One input file of `analyzeDocumentsForPersona`: its name and its decoded
page list; `content` errs when `file.arrayBuffer()` or `getDocument` throws,
an inner page errs when `getPage`/`getTextContent` throws. -/
structure AFile where
  name : List Char
  content : Except Unit (List (Except Unit (List TextItem)))
deriving DecidableEq

/-! ## Shared numeric / list utilities mirroring JavaScript built-ins -/

/-- `Math.round`: round half toward positive infinity. -/
def jsRound (q : ℚ) : ℤ := ⌊q + 1/2⌋

/-- `await Promise.all(...)` over already-started tasks: succeeds with the
list of results in order iff every task succeeds, and fails as soon as any
task fails (the error payload is opaque, hence `Unit`). -/
def seqE {α : Type} : List (Except Unit α) → Except Unit (List α)
  | [] => .ok []
  | .error _ :: _ => .error ()
  | .ok a :: xs => (seqE xs).map (a :: ·)

/-- Stable insertion of `x` into a list sorted ascending by `key`: `x` goes
before the first element whose key is not smaller, which is exactly the
placement a stable `Array.prototype.sort` produces for an element arriving
after the already-sorted ones... (see `sSortBy`). -/
def sInsert {α β : Type} [LinearOrder β] (key : α → β) (x : α) : List α → List α
  | [] => [x]
  | y :: ys => if key y < key x then y :: sInsert key x ys else x :: y :: ys

/-- Stable sort ascending by `key`; models the stable `Array.prototype.sort`
with a numeric comparator (descending orders use a negated key). -/
def sSortBy {α β : Type} [LinearOrder β] (key : α → β) : List α → List α
  | [] => []
  | x :: xs => sInsert key x (sSortBy key xs)

/-- Worker for `dedupBy`; `seen` is the set of keys already emitted. -/
def dedupByGo {α κ : Type} [DecidableEq κ] (key : α → κ) : List α → List κ → List α
  | [], _ => []
  | x :: xs, seen =>
    if key x ∈ seen then dedupByGo key xs seen
    else x :: dedupByGo key xs (key x :: seen)

/-- Keep the first occurrence of each key; models the source's
`arr.filter((item, index) => arr.findIndex(samekey) === index)` idiom and the
insertion-order key set of a JavaScript `Map`. -/
def dedupBy {α κ : Type} [DecidableEq κ] (key : α → κ) (l : List α) : List α :=
  dedupByGo key l []

/-- `Array.prototype.join(sep)` for a list of strings. -/
def joinSep (sep : List Char) (ls : List (List Char)) : List Char :=
  List.intercalate sep ls

/-- Decimal rendering of a counter for the synthesized titles
`Paragraph N` / `Section N`. -/
def natStr (n : Nat) : List Char := (Nat.repr n).toList

/-! ## Section segmenter (`extractMeaningSections`) -/

/-- Index of the last `'\n'` inside a whitespace run, if any; used to model the
greedy backtracking of `\n\s*\n` (the `\s*` consumes as much as possible while
still leaving a closing newline). -/
def lastNlIdx (run : List Char) : Option Nat :=
  match run.reverse.findIdx? fun c => c == '\n' with
  | some i => some (run.length - 1 - i)
  | none => none

/-- Length of the separator matched by `/\n\s*\n|\.\s{3,}/` at the head of
`l`, if the regexp matches there.  The alternatives start with distinct
characters (`'\n'` vs `'.'`), so alternation order never matters. -/
def sepLen : List Char → Option Nat
  | [] => none
  | c :: rest =>
    if c == '\n' then
      match lastNlIdx (rest.takeWhile isWs) with
      | some j => some (j + 2)
      | none => none
    else if c == '.' then
      if 3 ≤ (rest.takeWhile isWs).length then some (1 + (rest.takeWhile isWs).length)
      else none
    else none

/-- Worker for `paraSplit`: leftmost-match scan of the paragraph separator
regexp, accumulating the current fragment reversed in `acc`.  The `fuel`
argument (initialized to the string length, which every step consumes at
least one character of) makes the recursion structural. -/
def paraSplitGo : Nat → List Char → List Char → List (List Char)
  | 0, _, acc => [acc.reverse]
  | _ + 1, [], acc => [acc.reverse]
  | fuel + 1, c :: rest, acc =>
    match sepLen (c :: rest) with
    | some k => acc.reverse :: paraSplitGo fuel ((c :: rest).drop k) []
    | none => paraSplitGo fuel rest (c :: acc)

/-- `text.split(/\n\s*\n|\.\s{3,}/)` of the source. -/
def paraSplit (l : List Char) : List (List Char) := paraSplitGo l.length l []

/-- A `{title, text}` section produced by `extractMeaningSections`. -/
structure MSection where
  title : List Char
  text : List Char
deriving DecidableEq

/-- Fixed-size grouping of the sentence list, modelling the source's
`for (let i = 0; i < sentences.length; i += chunkSize)` loop (always invoked
with `chunkSize ≥ 3`). -/
def chunkListGo {α : Type} (cs : Nat) : Nat → List α → List (List α)
  | 0, _ => []
  | _ + 1, [] => []
  | fuel + 1, x :: xs => (x :: xs).take cs :: chunkListGo cs fuel (xs.drop (cs - 1))

/-- See `chunkListGo`; the fuel (the list length, an upper bound on the number
of chunks) makes the loop structural. -/
def chunkList {α : Type} (cs : Nat) (l : List α) : List (List α) :=
  chunkListGo cs l.length l

/-- `extractMeaningSections(text)` from the source: paragraph split with a
first-sentence-as-title heuristic, falling back to fixed-size sentence chunks
when no paragraph survives the 50-character gate. -/
def extractMeaningSections (text : List Char) : List MSection :=
  let paragraphs := (paraSplit text).filter fun p => 50 < (trimWs p).length
  let sections := paragraphs.enum.flatMap fun pr =>
    let cleanParagraph := trimWs pr.2
    if 50 < cleanParagraph.length then
      let sentences := splitRuns isSentEnd cleanParagraph
      let firstSentence := trimWs (sentences.headD [])
      if !firstSentence.isEmpty && firstSentence.length < 80 &&
          10 < firstSentence.length && 1 < sentences.length then
        [⟨firstSentence, trimWs (joinSep ". ".toList (sentences.drop 1))⟩]
      else
        [⟨"Paragraph ".toList ++ natStr (pr.1 + 1), cleanParagraph⟩]
    else []
  if sections.isEmpty then
    let sentences := (splitRuns isSentEnd text).filter fun s => 30 < (trimWs s).length
    let chunkSize := max 3 (min 8 (sentences.length / 4))
    (chunkList chunkSize sentences).enum.flatMap fun ch =>
      if ch.2.isEmpty then []
      else [⟨"Section ".toList ++ natStr (ch.1 + 1),
            trimWs (joinSep ". ".toList ch.2) ++ ".".toList⟩]
  else sections

/-! ## Persona pipeline (`analyzeDocumentsForPersona`) -/

/-- The per-page body of `analyzeDocumentsForPersona` (the closure passed to
`pdf.getPage(pageNum).then`): the 50-character page gate, section extraction,
scoring, and sub-section refinement.  Each produced sub-section is paired with
the relevance score of the section it came from (a ghost annotation; the
source drops the score). -/
def processPage (docName : List Char) (pageNum : Nat) (items : List TextItem)
    (persona jobToBeDone : List Char) :
    List ExtractedSection × List (SubSection × ℚ) :=
  let pageText := trimWs (joinSep " ".toList (items.map (·.str)))
  if pageText.length < 50 then ([], []) else
  let _pageRelevance := calculateEnhancedRelevanceScore pageText persona jobToBeDone
  let sections := extractMeaningSections pageText
  let results := sections.enum.map fun pr =>
    let sectionScore := calculateEnhancedRelevanceScore pr.2.text persona jobToBeDone
    if (0.2 : ℚ) < sectionScore then
      let secEntry : ExtractedSection :=
        { document := docName, pageNumber := pageNum,
          sectionTitle :=
            if pr.2.title.isEmpty then "Section ".toList ++ natStr (pr.1 + 1)
            else pr.2.title,
          importanceRank := jsRound (sectionScore * 10) }
      let sentences := (splitRuns isSentEnd pr.2.text).filter fun s => 30 < (trimWs s).length
      let relevantSentences :=
        (sSortBy (fun x => -x.2)
          ((sentences.map fun s =>
            (trimWs s, calculateEnhancedRelevanceScore s persona jobToBeDone)).filter
              fun x => (0.3 : ℚ) < x.2)).take 2
      let subs :=
        if relevantSentences.isEmpty then []
        else [({ document := docName,
                 refinedText := joinSep ". ".toList (relevantSentences.map (·.1)) ++ ".".toList,
                 pageNumber := pageNum }, sectionScore)]
      ([secEntry], subs)
    else ([], [])
  ((results.map (·.1)).flatten, (results.map (·.2)).flatten)

/-- The per-document body of `analyzeDocumentsForPersona` (the closure passed
to `files.map`): open the document, process its first `min(numPages, 15)`
pages, and pool the per-page results in page order (`Promise.all` preserves
order). -/
def processDoc (f : AFile) (persona jobToBeDone : List Char) :
    Except Unit (List ExtractedSection × List (SubSection × ℚ)) :=
  match f.content with
  | .error _ => .error ()
  | .ok pages =>
    match seqE (pages.take 15) with
    | .error _ => .error ()
    | .ok pageLists =>
      let rs := (pageLists.enumFrom 1).map fun pg =>
        processPage f.name pg.1 pg.2 persona jobToBeDone
      .ok ((rs.map (·.1)).flatten, (rs.map (·.2)).flatten)

/-- The pooled extracted sections across all documents, in discovery order
(document order, then page order, then section order), as they stand before
the final sort-and-truncate.  Empty when the run fails. -/
def pooledSections (files : List AFile) (persona jobToBeDone : List Char) :
    List ExtractedSection :=
  match seqE (files.map (processDoc · persona jobToBeDone)) with
  | .ok rs => (rs.map (·.1)).flatten
  | .error _ => []

/-- The pooled qualifying sub-section excerpts across all documents in
discovery order, each paired with its section's relevance score. -/
def pooledScoredSubs (files : List AFile) (persona jobToBeDone : List Char) :
    List (SubSection × ℚ) :=
  match seqE (files.map (processDoc · persona jobToBeDone)) with
  | .ok rs => (rs.map (·.2)).flatten
  | .error _ => []

/-- `analyzeDocumentsForPersona(files, persona, jobToBeDone)` from the source:
process every document (`Promise.all` over the per-document promises — one
rejection rejects the whole operation, caught and rethrown as the domain
error), pool, sort the sections descending by `importanceRank` (stable), and
truncate to the caps 15 / 20. -/
def analyzeDocumentsForPersona (files : List AFile) (persona jobToBeDone : List Char) :
    Except Unit PersonaAnalysis :=
  match seqE (files.map (processDoc · persona jobToBeDone)) with
  | .error _ => .error ()
  | .ok rs =>
    .ok { metadata := { documents := files.map (·.name), persona := persona,
                        jobToBeDone := jobToBeDone },
          extractedSections :=
            (sSortBy (fun s => -s.importanceRank) ((rs.map (·.1)).flatten)).take 15,
          subSectionAnalysis := (((rs.map (·.2)).flatten).map (·.1)).take 20 }

/-! ## Outline pipeline (`extractPDFOutline`) -/

/-- `H1 ↦ 1, H2 ↦ 2, H3 ↦ 3` for cluster index `0, 1, ≥2`
(`index === 0 ? 'H1' : index === 1 ? 'H2' : 'H3'`). -/
def levelOfIdx (i : Nat) : Nat := min (i + 1) 3

/-- The text items participating in heading clustering on a page: non-empty
trimmed text (`'str' in item && item.str.trim().length > 0`) and truthy
height (`if (item.height && item.str)`). -/
def clusterItems (items : List TextItem) : List TextItem :=
  (items.filter fun it => !(trimWs it.str).isEmpty).filter fun it => !(it.height == 0)

/-- Distinct rounded heights of a page in descending order: the key set of the
source's `fontSizes` map (insertion order = first occurrence), sorted by
`(a, b) => b - a`. -/
def sortedSizes (items : List TextItem) : List ℤ :=
  sSortBy (fun r => -r) (dedupBy id ((clusterItems items).map fun it => jsRound it.height))

/-- The bucket of the `fontSizes` map for rounded height `r`: the trimmed
texts of the matching items, in item order. -/
def clusterTexts (items : List TextItem) (r : ℤ) : List (List Char) :=
  ((clusterItems items).filter fun it => jsRound it.height == r).map fun it => trimWs it.str

/-- The heading-candidate filter of the source: length in (3, 100), no period,
leading character in `[A-Z]`. -/
def headingTextOk (t : List Char) : Bool :=
  3 < t.length && t.length < 100 && !(t.contains '.') &&
    (match t with
     | [] => false
     | c :: _ => 65 ≤ c.toNat && c.toNat ≤ 90)

/-- The heading candidates one page contributes to the outline: top four
font-size clusters, largest ↦ H1, next ↦ H2, rest ↦ H3, texts filtered by
`headingTextOk`. -/
def pageHeadings (pageNum : Nat) (items : List TextItem) : List OutlineItem :=
  ((sortedSizes items).take 4).enum.flatMap fun pr =>
    (clusterTexts items pr.2).flatMap fun text =>
      if headingTextOk text then [⟨levelOfIdx pr.1, text, pageNum⟩] else []

/-- `file.name.replace('.pdf', '')`: remove the *first* occurrence of the
substring (JavaScript `String.prototype.replace` with a string pattern). -/
def replaceFirst : List Char → List Char → List Char
  | [], _ => []
  | c :: rest, pat =>
    if pat.isPrefixOf (c :: rest) then (c :: rest).drop pat.length
    else c :: replaceFirst rest pat

/-- The title computation of `extractPDFOutline`: default is the file name
with the first `".pdf"` removed; an available metadata title overrides it when
present and truthy (non-empty); a metadata failure is caught and keeps the
default. -/
def computeTitle (d : ODoc) : List Char :=
  match d.metaTitle with
  | .error _ => replaceFirst d.name ".pdf".toList
  | .ok none => replaceFirst d.name ".pdf".toList
  | .ok (some t) => if t.isEmpty then replaceFirst d.name ".pdf".toList else t

/-- The page loop of `extractPDFOutline`: headings of the first
`min(numPages, 50)` pages in page order; a page failure aborts (no per-page
recovery exists in the source). -/
def rawOutline (d : ODoc) : Except Unit (List OutlineItem) :=
  match seqE (d.pages.take 50) with
  | .error _ => .error ()
  | .ok pages => .ok ((pages.enumFrom 1).flatMap fun pg => pageHeadings pg.1 pg.2)

/-- `extractPDFOutline(file)` from the source: any decoder throw (opening the
file or reading any page) reaches the outer catch and fails the invocation;
on success the pooled candidates are deduplicated by `(text, page)` keeping
first occurrences, then stably sorted ascending by page. -/
def extractPDFOutline (file : Except Unit ODoc) : Except Unit PDFOutline :=
  match file with
  | .error _ => .error ()
  | .ok d =>
    match rawOutline d with
    | .error _ => .error ()
    | .ok raw =>
      .ok ⟨computeTitle d,
           sSortBy (fun it => it.page) (dedupBy (fun it => (it.text, it.page)) raw)⟩

/-! ## Derived definitions used by the claims -/

/-- The heading level the classifier assigns to a text span on a page whose
items are `items`: defined iff the span's trimmed text passes the heading
filter, its height is truthy, and its rounded height is among the page's top
four font-size clusters; the level is the cluster's position (`H1`, `H2`,
`H3`, `H3`).  This is the per-span view of `pageHeadings`. -/
def assignedLevel (items : List TextItem) (it : TextItem) : Option Nat :=
  if it.height ≠ 0 ∧ headingTextOk (trimWs it.str) = true then
    match ((sortedSizes items).take 4).indexOf? (jsRound it.height) with
    | some i => some (levelOfIdx i)
    | none => none
  else none

/-- Modelled from the spec's words "the filename with extension stripped":
everything before the last dot (the whole name when it has no dot).  Used only
to compare the specified title default with the implemented one. -/
def specStripExtension (name : List Char) : List Char :=
  match (name.reverse).findIdx? (fun c => c == '.') with
  | some i => name.take (name.length - 1 - i)
  | none => name

/-! ## Concrete decoder inputs used by counterexamples and witnesses -/

/-- 51 characters, one `zzz` whole-word occurrence: relevance 0.6 against an
empty persona and the job keyword `zzz`. -/
def tLow : List Char := ("zzz " ++ String.mk (List.replicate 47 'a')).toList

/-- 55 characters, four `zzz` occurrences: relevance 0.96. -/
def tHi : List Char := ("zzz zzz zzz zzz " ++ String.mk (List.replicate 39 'a')).toList

/-- A one-page document whose single page text is `tLow`. -/
def fLow : AFile := ⟨"low.pdf".toList, .ok [.ok [⟨tLow, 10⟩]]⟩

/-- A one-page document whose single page text is `tHi`. -/
def fHi : AFile := ⟨"hi.pdf".toList, .ok [.ok [⟨tHi, 10⟩]]⟩

/-- Twenty low-scoring documents followed by one high-scoring one: more
qualifying excerpts (21) than the cap (20) admits. -/
def files21 : List AFile := List.replicate 20 fLow ++ [fHi]

/-- A page with two heading-sized spans and one body span. -/
def pgHead : List TextItem :=
  [⟨"Introduction".toList, 18⟩, ⟨"This is body text.".toList, 10⟩,
   ⟨"Subhead".toList, 12⟩]

/-- A well-formed outline-path document whose name contains `".pdf"` twice. -/
def dName : ODoc := ⟨"a.pdfb.pdf".toList, .ok none, [.ok pgHead]⟩

/-- An outline-path document whose first page read throws while its second
page would contribute a heading. -/
def dBadPage : ODoc := ⟨"x.pdf".toList, .ok none, [.error (), .ok pgHead]⟩

/-- The same document with the failing page removed. -/
def dGoodPage : ODoc := ⟨"x.pdf".toList, .ok none, [.ok pgHead]⟩

/-- A persona-path file whose open/read throws. -/
def fBad : AFile := ⟨"bad.pdf".toList, .error ()⟩

/-- The outline items `pgHead` contributes (H1 for the 18-high span, H2 for
the 12-high one; the body span is filtered out by its period). -/
def rawHead : List OutlineItem :=
  [⟨1, "Introduction".toList, 1⟩, ⟨2, "Subhead".toList, 1⟩]

/-- The `PDFOutline` the embedded `extractPDFOutline` returns for `dName`. -/
def outName : PDFOutline := ⟨"ab.pdf".toList, rawHead⟩

/-- The single extracted section the document `fLow` yields (relevance 0.6,
rank `round(6) = 6`). -/
def secLow : ExtractedSection := ⟨"low.pdf".toList, 1, "Paragraph 1".toList, 6⟩

/-- The full analysis record for the single document `fLow` with persona
`"a"` and job `"zzz"`. -/
def rFLow : PersonaAnalysis :=
  ⟨⟨["low.pdf".toList], "a".toList, "zzz".toList⟩, [secLow],
   [⟨"low.pdf".toList, tLow ++ ".".toList, 1⟩]⟩

/-! ## Lemmas about the stable sort, deduplication, and task sequencing -/

section SortLemmas

variable {α β : Type} [LinearOrder β] (key : α → β)

theorem mem_sInsert (x z : α) (l : List α) :
    z ∈ sInsert key x l ↔ z = x ∨ z ∈ l := by
  induction l with
  | nil => simp [sInsert]
  | cons y ys ih =>
    by_cases h : key y < key x
    · simp only [sInsert, if_pos h, List.mem_cons, ih]
      tauto
    · simp only [sInsert, if_neg h, List.mem_cons]

theorem sInsert_perm (x : α) (l : List α) : List.Perm (sInsert key x l) (x :: l) := by
  induction l with
  | nil => simp [sInsert]
  | cons y ys ih =>
    by_cases h : key y < key x
    · simp only [sInsert, if_pos h]
      exact (ih.cons y).trans (List.Perm.swap x y ys)
    · simp [sInsert, if_neg h]

theorem sInsert_sorted (x : α) (l : List α)
    (h : l.Pairwise fun a b => key a ≤ key b) :
    (sInsert key x l).Pairwise fun a b => key a ≤ key b := by
  induction l with
  | nil => simp [sInsert]
  | cons y ys ih =>
    rcases List.pairwise_cons.1 h with ⟨hy, hys⟩
    by_cases hc : key y < key x
    · simp only [sInsert, if_pos hc]
      refine List.pairwise_cons.2 ⟨?_, ih hys⟩
      intro z hz
      rcases (mem_sInsert key x z ys).1 hz with rfl | hzys
      · exact le_of_lt hc
      · exact hy z hzys
    · simp only [sInsert, if_neg hc]
      refine List.pairwise_cons.2 ⟨?_, h⟩
      intro z hz
      rcases List.mem_cons.1 hz with rfl | hzys
      · exact le_of_not_lt hc
      · exact le_trans (le_of_not_lt hc) (hy z hzys)

theorem sSortBy_perm (l : List α) : List.Perm (sSortBy key l) l := by
  induction l with
  | nil => simp [sSortBy]
  | cons x xs ih => exact (sInsert_perm key x (sSortBy key xs)).trans (ih.cons x)

theorem sSortBy_sorted (l : List α) :
    (sSortBy key l).Pairwise fun a b => key a ≤ key b := by
  induction l with
  | nil => simp [sSortBy]
  | cons x xs ih => exact sInsert_sorted key x (sSortBy key xs) ih

theorem sInsert_filter_eq (v : β) (x : α) (l : List α) :
    (sInsert key x l).filter (fun a => decide (key a = v)) =
      if key x = v then x :: l.filter (fun a => decide (key a = v))
      else l.filter (fun a => decide (key a = v)) := by
  induction l with
  | nil => by_cases h : key x = v <;> simp [sInsert, h]
  | cons y ys ih =>
    by_cases hc : key y < key x
    · simp only [sInsert, if_pos hc, List.filter_cons]
      by_cases hx : key x = v
      · have hy : ¬ (key y = v) := by rw [← hx]; exact ne_of_lt hc
        simp [hy, ih, hx]
      · by_cases hy : key y = v <;> simp [hy, ih, hx]
    · simp only [sInsert, if_neg hc, List.filter_cons]
      by_cases hx : key x = v <;> simp [hx]

theorem sSortBy_filter_eq (v : β) (l : List α) :
    (sSortBy key l).filter (fun a => decide (key a = v)) =
      l.filter (fun a => decide (key a = v)) := by
  induction l with
  | nil => simp [sSortBy]
  | cons x xs ih =>
    show (sInsert key x (sSortBy key xs)).filter _ = _
    rw [sInsert_filter_eq]
    by_cases hx : key x = v
    · simp [List.filter_cons, hx, ih]
    · simp [List.filter_cons, hx, ih]

end SortLemmas

section DedupLemmas

variable {α κ : Type} [DecidableEq κ] (key : α → κ)

theorem dedupByGo_key_not_seen (l : List α) (seen : List κ) :
    ∀ x ∈ dedupByGo key l seen, key x ∉ seen := by
  induction l generalizing seen with
  | nil => simp [dedupByGo]
  | cons y ys ih =>
    intro x hx
    by_cases h : key y ∈ seen
    · exact ih seen x (by simpa [dedupByGo, h] using hx)
    · simp only [dedupByGo, if_neg h, List.mem_cons] at hx
      rcases hx with rfl | hx
      · exact h
      · have := ih (key y :: seen) x hx
        intro hc
        exact this (List.mem_cons_of_mem _ hc)

theorem dedupByGo_pairwise (l : List α) (seen : List κ) :
    (dedupByGo key l seen).Pairwise fun a b => key a ≠ key b := by
  induction l generalizing seen with
  | nil => simp [dedupByGo]
  | cons y ys ih =>
    by_cases h : key y ∈ seen
    · simpa [dedupByGo, h] using ih seen
    · simp only [dedupByGo, if_neg h]
      refine List.pairwise_cons.2 ⟨?_, ih (key y :: seen)⟩
      intro z hz hc
      exact dedupByGo_key_not_seen key ys (key y :: seen) z hz (hc ▸ List.mem_cons_self _ _)

/-- `dedupBy` leaves no two elements sharing a key. -/
theorem dedupBy_pairwise (l : List α) :
    (dedupBy key l).Pairwise fun a b => key a ≠ key b :=
  dedupByGo_pairwise key l []

end DedupLemmas

section SeqELemmas

variable {α : Type}

/-- One failed task fails the whole `Promise.all`. -/
theorem seqE_error_of_mem (l : List (Except Unit α)) (h : Except.error () ∈ l) :
    seqE l = .error () := by
  induction l with
  | nil => cases h
  | cons x xs ih =>
    match x with
    | .error () => rfl
    | .ok a =>
      have : Except.error () ∈ xs := by
        rcases List.mem_cons.1 h with h1 | h1
        · cases h1
        · exact h1
      simp [seqE, ih this, Except.map]

/-- Every result of a successful `Promise.all` comes from a successful task. -/
theorem seqE_ok_mem (l : List (Except Unit α)) (as : List α) (h : seqE l = .ok as) :
    ∀ a ∈ as, Except.ok a ∈ l := by
  induction l generalizing as with
  | nil =>
    cases h
    simp
  | cons x xs ih =>
    match x with
    | .error () => cases h
    | .ok b =>
      simp only [seqE] at h
      match hxs : seqE xs with
      | .error () => rw [hxs] at h; cases h
      | .ok bs =>
        rw [hxs] at h
        cases h
        intro a ha
        rcases List.mem_cons.1 ha with rfl | ha
        · exact List.mem_cons_self _ _
        · exact List.mem_cons_of_mem _ (ih bs hxs a ha)

end SeqELemmas

/-! ## Claim C10: the 50-character page gate -/

/-- **C10**: in `analyzeDocumentsForPersona`, every page whose concatenated,
trimmed text is shorter than 50 characters contributes no extracted sections
and no sub-section excerpts, for every persona and job description. -/
theorem c10_short_page_contributes_nothing (docName : List Char) (pageNum : Nat)
    (items : List TextItem) (persona jobToBeDone : List Char)
    (h : (trimWs (joinSep " ".toList (items.map (·.str)))).length < 50) :
    processPage docName pageNum items persona jobToBeDone = ([], []) := by
  simp only [processPage]
  rw [if_pos h]

/-- Witness for `c10_short_page_contributes_nothing` at a concrete short page. -/
theorem c10_short_page_witness :
    (trimWs (joinSep " ".toList (([⟨"hi".toList, (10:ℚ)⟩] : List TextItem).map (·.str)))).length < 50 ∧
      processPage "d.pdf".toList 1 [⟨"hi".toList, (10:ℚ)⟩] "p".toList "j".toList = ([], []) :=
  ⟨by decide, c10_short_page_contributes_nothing "d.pdf".toList 1 [⟨"hi".toList, (10:ℚ)⟩]
    "p".toList "j".toList (by decide)⟩

/-! ## Claim C4: the relevance score lies in [0, 1] -/

theorem calculateContextBonus_nonneg (t k : List Char) (allKeywords : List (List Char)) :
    0 ≤ calculateContextBonus t k allKeywords := by
  unfold calculateContextBonus
  refine le_min (mul_nonneg (by norm_num) (List.sum_nonneg ?_)) (by norm_num)
  intro x hx
  obtain ⟨i, _, rfl⟩ := List.mem_map.1 hx
  positivity

/-- Shared bound lemma: the relevance score always lies in `[0, 1]`. -/
theorem relevanceScore_bounds (text persona jobToBeDone : List Char) :
    0 ≤ calculateEnhancedRelevanceScore text persona jobToBeDone ∧
      calculateEnhancedRelevanceScore text persona jobToBeDone ≤ 1 := by
  simp only [calculateEnhancedRelevanceScore]
  split
  · exact ⟨le_refl 0, by norm_num⟩
  · constructor
    · refine le_min ?_ (by norm_num)
      refine add_nonneg (add_nonneg (List.sum_nonneg ?_) (List.sum_nonneg ?_)) (List.sum_nonneg ?_)
      · intro x hx
        obtain ⟨k, hk, rfl⟩ := List.mem_map.1 hx
        split
        · have := calculateContextBonus_nonneg (lowerStr text) k
            (extractKeywords (lowerStr persona) ++ extractKeywords (lowerStr jobToBeDone))
          positivity
        · exact le_refl 0
      · intro x hx
        obtain ⟨k, hk, rfl⟩ := List.mem_map.1 hx
        split
        · have := calculateContextBonus_nonneg (lowerStr text) k
            (extractKeywords (lowerStr persona) ++ extractKeywords (lowerStr jobToBeDone))
          positivity
        · exact le_refl 0
      · intro x hx
        obtain ⟨term, ht, rfl⟩ := List.mem_map.1 hx
        split <;> norm_num
    · exact min_le_right _ _

/-- **C4**: for every text, persona description and job description the
relevance scorer returns a value in the closed interval `[0, 1]`, however many
keyword matches, context bonuses and professional-term bonuses accumulate
(and, being a pure function of its arguments, it is deterministic). -/
theorem c4_score_in_unit_interval (text persona jobToBeDone : List Char) :
    0 ≤ calculateEnhancedRelevanceScore text persona jobToBeDone ∧
      calculateEnhancedRelevanceScore text persona jobToBeDone ≤ 1 :=
  relevanceScore_bounds text persona jobToBeDone

/-! ## Claim C8: larger glyphs never get a numerically larger heading level -/

theorem pairwiseAnd {α : Type} {R S : α → α → Prop} {l : List α}
    (hR : l.Pairwise R) (hS : l.Pairwise S) :
    l.Pairwise fun a b => R a b ∧ S a b := by
  induction l with
  | nil => simp
  | cons x xs ih =>
    rcases List.pairwise_cons.1 hR with ⟨hR1, hR2⟩
    rcases List.pairwise_cons.1 hS with ⟨hS1, hS2⟩
    exact List.pairwise_cons.2 ⟨fun z hz => ⟨hR1 z hz, hS1 z hz⟩, ih hR2 hS2⟩

/-- The distinct rounded sizes of a page are strictly descending. -/
theorem sortedSizes_pairwise_gt (items : List TextItem) :
    (sortedSizes items).Pairwise (· > ·) := by
  unfold sortedSizes
  set rounds := dedupBy id ((clusterItems items).map fun it => jsRound it.height) with hr
  have h1 := sSortBy_sorted (fun r : ℤ => -r) rounds
  have h2 : rounds.Pairwise (· ≠ ·) := dedupBy_pairwise id _
  have hperm := sSortBy_perm (fun r : ℤ => -r) rounds
  have h2' := (List.Perm.pairwise_iff (fun {_ _} h => Ne.symm h) hperm).2 h2
  exact (pairwiseAnd h1 h2').imp fun hab =>
    lt_of_le_of_ne (neg_le_neg_iff.1 hab.1) (Ne.symm hab.2)

theorem indexOf_cons_eq (x : ℤ) (xs : List ℤ) (a : ℤ) :
    (x :: xs).indexOf? a = if x == a then some 0 else (xs.indexOf? a).map (· + 1) := by
  simp [List.indexOf?, List.findIdx?_cons]

theorem mem_of_indexOf (L : List ℤ) (a : ℤ) (i : Nat) (h : L.indexOf? a = some i) :
    a ∈ L := by
  induction L generalizing i with
  | nil => simp [List.indexOf?, List.findIdx?] at h
  | cons x xs ih =>
    rw [indexOf_cons_eq] at h
    by_cases hxa : x = a
    · exact hxa ▸ List.mem_cons_self x xs
    · rw [if_neg (by simp [hxa])] at h
      match hia : xs.indexOf? a with
      | none => rw [hia] at h; cases h
      | some i' =>
        rw [hia] at h
        exact List.mem_cons_of_mem _ (ih i' hia)

/-- In a strictly descending list, the position of a value is monotone:
a value at least as large is found at a position at most as large. -/
theorem indexOf_le_of_pairwise_gt (L : List ℤ) (hL : L.Pairwise (· > ·)) (a b : ℤ)
    (i j : Nat) (hab : b ≤ a) (ha : L.indexOf? a = some i)
    (hb : L.indexOf? b = some j) : i ≤ j := by
  induction L generalizing i j with
  | nil => simp [List.indexOf?, List.findIdx?] at ha
  | cons x xs ih =>
    rw [indexOf_cons_eq] at ha hb
    rcases List.pairwise_cons.1 hL with ⟨hx, hxs⟩
    by_cases hxa : x = a
    · rw [if_pos (by simp [hxa])] at ha
      injection ha with ha
      omega
    · rw [if_neg (by simp [hxa])] at ha
      match hia : xs.indexOf? a with
      | none => rw [hia] at ha; cases ha
      | some i' =>
        rw [hia] at ha
        simp only [Option.map_some'] at ha
        injection ha with ha
        by_cases hxb : x = b
        · exfalso
          have hmem : a ∈ xs := mem_of_indexOf xs a i' hia
          have := hx a hmem
          omega
        · rw [if_neg (by simp [hxb])] at hb
          match hib : xs.indexOf? b with
          | none => rw [hib] at hb; cases hb
          | some j' =>
            rw [hib] at hb
            simp only [Option.map_some'] at hb
            injection hb with hb
            have := ih hxs i' j' hia hib
            omega

theorem jsRound_mono {q r : ℚ} (h : q ≤ r) : jsRound q ≤ jsRound r :=
  Int.floor_le_floor (by linarith)

theorem levelOfIdx_mono {i j : Nat} (h : i ≤ j) : levelOfIdx i ≤ levelOfIdx j := by
  unfold levelOfIdx
  omega

/-- **C8**: on any single page, if two text spans are both assigned heading
levels and the first's height is strictly greater, the first's numeric level
is at most the second's (H1 < H2 < H3: largest cluster → H1, next → H2,
remaining promoted clusters → H3). -/
theorem c8_larger_height_smaller_level (items : List TextItem) (s1 s2 : TextItem)
    (l1 l2 : Nat) (h1 : assignedLevel items s1 = some l1)
    (h2 : assignedLevel items s2 = some l2) (hh : s2.height < s1.height) :
    l1 ≤ l2 := by
  unfold assignedLevel at h1 h2
  by_cases c1 : s1.height ≠ 0 ∧ headingTextOk (trimWs s1.str) = true
  · rw [if_pos c1] at h1
    by_cases c2 : s2.height ≠ 0 ∧ headingTextOk (trimWs s2.str) = true
    · rw [if_pos c2] at h2
      match e1 : ((sortedSizes items).take 4).indexOf? (jsRound s1.height) with
      | none => rw [e1] at h1; cases h1
      | some i1 =>
        rw [e1] at h1
        injection h1 with h1
        match e2 : ((sortedSizes items).take 4).indexOf? (jsRound s2.height) with
        | none => rw [e2] at h2; cases h2
        | some i2 =>
          rw [e2] at h2
          injection h2 with h2
          have hp : ((sortedSizes items).take 4).Pairwise (· > ·) :=
            List.Pairwise.sublist (List.take_sublist 4 _) (sortedSizes_pairwise_gt items)
          have hr : jsRound s2.height ≤ jsRound s1.height := jsRound_mono (le_of_lt hh)
          have hij := indexOf_le_of_pairwise_gt _ hp _ _ i1 i2 hr e1 e2
          rw [← h1, ← h2]
          exact levelOfIdx_mono hij
    · rw [if_neg c2] at h2; cases h2
  · rw [if_neg c1] at h1; cases h1

/-- Witness for `c8_larger_height_smaller_level`: on the concrete page
`pgHead`, the 18-high span gets H1 (level 1) and the 12-high span gets H2
(level 2). -/
theorem c8_witness :
    assignedLevel pgHead ⟨"Introduction".toList, 18⟩ = some 1 ∧
      assignedLevel pgHead ⟨"Subhead".toList, 12⟩ = some 2 ∧ (1 : Nat) ≤ 2 :=
  ⟨by decide, by decide,
    c8_larger_height_smaller_level pgHead ⟨"Introduction".toList, 18⟩
      ⟨"Subhead".toList, 12⟩ 1 2 (by decide) (by decide) (by decide)⟩

/-! ## Claim C3: the outline title rule -/

/-- **C3** is corrected by this counterexample: for the file name
`"a.pdfb.pdf"` (no metadata title), the implementation's title is `"ab.pdf"`
— the *first* occurrence of the substring `".pdf"` is removed — while the
filename with its extension stripped is `"a.pdfb"`. -/
theorem c3_counterexample :
    extractPDFOutline (.ok dName) = .ok outName ∧
      outName.title = "ab.pdf".toList ∧
      specStripExtension dName.name = "a.pdfb".toList ∧
      "ab.pdf".toList ≠ "a.pdfb".toList :=
  ⟨by decide, by decide, by decide, by decide⟩

/-- **C3 (amended)**: the title of a successfully extracted outline is the
metadata title when it is present and non-empty, and otherwise the file name
with the first occurrence of the substring `".pdf"` removed (which equals
extension-stripping for names that contain `".pdf"` only as their final
extension). -/
theorem c3_amended_title_rule (d : ODoc) (r : PDFOutline)
    (h : extractPDFOutline (.ok d) = .ok r) :
    r.title = match d.metaTitle with
      | .ok (some t) => if t.isEmpty then replaceFirst d.name ".pdf".toList else t
      | _ => replaceFirst d.name ".pdf".toList := by
  simp only [extractPDFOutline] at h
  match hraw : rawOutline d with
  | .error e => rw [hraw] at h; cases h
  | .ok raw =>
    rw [hraw] at h
    injection h with h
    rw [← h]
    rcases hm : d.metaTitle with e | t
    · simp [computeTitle, hm]
    · rcases t with _ | t
      · simp [computeTitle, hm]
      · simp [computeTitle, hm]

/-- Witness for `c3_amended_title_rule` at the concrete document `dName`. -/
theorem c3_amended_witness :
    outName.title = match dName.metaTitle with
      | .ok (some t) => if t.isEmpty then replaceFirst dName.name ".pdf".toList else t
      | _ => replaceFirst dName.name ".pdf".toList :=
  c3_amended_title_rule dName outName (by decide)

/-! ## Claim C1: failure handling is fatal, not skip-and-continue -/

/-- **C1** is corrected by this counterexample: a document whose first page
read throws makes the whole `extractPDFOutline` invocation fail even though
its sibling page carries headings (shown by the same document with the bad
page removed succeeding), and one unreadable file makes the whole
`analyzeDocumentsForPersona` invocation fail even though its sibling document
alone yields a non-empty result.  Nothing is skipped. -/
theorem c1_counterexample :
    extractPDFOutline (.ok dBadPage) = .error () ∧
      extractPDFOutline (.ok dGoodPage) = .ok ⟨"x".toList, rawHead⟩ ∧
      analyzeDocumentsForPersona [fBad, fLow] "a".toList "zzz".toList = .error () ∧
      (analyzeDocumentsForPersona [fLow] "a".toList "zzz".toList).map
        (fun r => r.extractedSections.length) = .ok 1 :=
  ⟨by decide, by decide, by decide, by decide⟩

/-- **C1 (amended)**: failure recovery is all-or-nothing at the invocation
level.  If the decoder throws while reading any processed page, the outline
invocation fails; if it throws while opening any document, or while reading
any processed page of any document, the persona invocation fails.  No page or
document is ever skipped. -/
theorem c1_amended_failure_is_fatal :
    (∀ d : ODoc, Except.error () ∈ d.pages.take 50 →
      extractPDFOutline (.ok d) = .error ()) ∧
    (∀ (files : List AFile) (persona jobToBeDone : List Char) (f : AFile),
      f ∈ files → f.content = .error () →
      analyzeDocumentsForPersona files persona jobToBeDone = .error ()) ∧
    (∀ (files : List AFile) (persona jobToBeDone : List Char) (f : AFile)
      (pages : List (Except Unit (List TextItem))),
      f ∈ files → f.content = .ok pages → Except.error () ∈ pages.take 15 →
      analyzeDocumentsForPersona files persona jobToBeDone = .error ()) := by
  refine ⟨?_, ?_, ?_⟩
  · intro d hmem
    simp only [extractPDFOutline, rawOutline, seqE_error_of_mem _ hmem]
  · intro files persona jobToBeDone f hf hc
    have hpd : processDoc f persona jobToBeDone = .error () := by
      simp only [processDoc, hc]
    have hmem : Except.error () ∈ files.map (processDoc · persona jobToBeDone) := by
      have := List.mem_map_of_mem (fun g => processDoc g persona jobToBeDone) hf
      simpa [hpd] using this
    simp only [analyzeDocumentsForPersona, seqE_error_of_mem _ hmem]
  · intro files persona jobToBeDone f pages hf hc hpg
    have hpd : processDoc f persona jobToBeDone = .error () := by
      simp only [processDoc, hc, seqE_error_of_mem _ hpg]
    have hmem : Except.error () ∈ files.map (processDoc · persona jobToBeDone) := by
      have := List.mem_map_of_mem (fun g => processDoc g persona jobToBeDone) hf
      simpa [hpd] using this
    simp only [analyzeDocumentsForPersona, seqE_error_of_mem _ hmem]

/-- Witness for `c1_amended_failure_is_fatal` at concrete failing inputs. -/
theorem c1_amended_witness :
    extractPDFOutline (.ok dBadPage) = .error () ∧
      analyzeDocumentsForPersona [fBad, fLow] "p".toList "zzz".toList = .error () ∧
      analyzeDocumentsForPersona [⟨"y.pdf".toList, .ok [.error ()]⟩] "p".toList
        "zzz".toList = .error () :=
  ⟨c1_amended_failure_is_fatal.1 dBadPage (by decide),
   c1_amended_failure_is_fatal.2.1 [fBad, fLow] "p".toList "zzz".toList fBad
     (by decide) (by decide),
   c1_amended_failure_is_fatal.2.2 [⟨"y.pdf".toList, .ok [.error ()]⟩] "p".toList
     "zzz".toList ⟨"y.pdf".toList, .ok [.error ()]⟩ [.error ()]
     (by decide) (by decide) (by decide)⟩

/-! ## Claim C7: outline deduplication and page ordering -/

/-- **C7**: a successfully extracted outline contains no two items with the
same `(text, page)` pair (first discovered occurrences are kept by the
deduplication), and it is sorted ascending by page with page-ties remaining in
the deduplicated discovery order (the per-page sublists are untouched by the
stable sort). -/
theorem c7_outline_dedup_sorted (d : ODoc) (raw : List OutlineItem) (r : PDFOutline)
    (hraw : rawOutline d = .ok raw) (h : extractPDFOutline (.ok d) = .ok r) :
    r.outline.Pairwise (fun a b => ¬(a.text = b.text ∧ a.page = b.page)) ∧
      r.outline.Pairwise (fun a b => a.page ≤ b.page) ∧
      ∀ p : Nat, r.outline.filter (fun it => decide (it.page = p)) =
        (dedupBy (fun it => (it.text, it.page)) raw).filter
          (fun it => decide (it.page = p)) := by
  simp only [extractPDFOutline] at h
  rw [hraw] at h
  injection h with h
  rw [← h]
  refine ⟨?_, ?_, ?_⟩
  · have hd := dedupBy_pairwise (fun it : OutlineItem => (it.text, it.page)) raw
    have hperm := sSortBy_perm (fun it : OutlineItem => it.page)
      (dedupBy (fun it => (it.text, it.page)) raw)
    have hsym : ∀ {a b : OutlineItem},
        (a.text, a.page) ≠ (b.text, b.page) → (b.text, b.page) ≠ (a.text, a.page) :=
      fun hne => Ne.symm hne
    have hd' := (List.Perm.pairwise_iff (fun {_ _} hne => Ne.symm hne) hperm).2 hd
    exact hd'.imp fun hne hab => hne (Prod.ext hab.1 hab.2)
  · exact sSortBy_sorted (fun it : OutlineItem => it.page) _
  · intro p
    exact sSortBy_filter_eq (fun it : OutlineItem => it.page) p _

/-- Witness for `c7_outline_dedup_sorted` at the concrete document `dName`,
with the stability conjunct instantiated at page 1. -/
theorem c7_witness :
    outName.outline.Pairwise (fun a b => ¬(a.text = b.text ∧ a.page = b.page)) ∧
      outName.outline.filter (fun it => decide (it.page = 1)) =
        (dedupBy (fun it => (it.text, it.page)) rawHead).filter
          (fun it => decide (it.page = 1)) :=
  ⟨(c7_outline_dedup_sorted dName rawHead outName (by decide) (by decide)).1,
   (c7_outline_dedup_sorted dName rawHead outName (by decide) (by decide)).2.2 1⟩

/-! ## Claim C6: section ordering and result caps -/

/-- **C6**: a successful persona analysis returns `extractedSections` sorted
non-increasing by `importanceRank` with ties keeping discovery order (for each
rank value, the sections carrying it form a prefix-compatible subsequence of
the pooled discovery-order list), at most 15 sections, and at most 20
sub-section excerpts, however many candidates qualified. -/
theorem c6_sorted_and_capped (files : List AFile) (persona jobToBeDone : List Char)
    (r : PersonaAnalysis)
    (h : analyzeDocumentsForPersona files persona jobToBeDone = .ok r) :
    r.extractedSections.Pairwise (fun a b => b.importanceRank ≤ a.importanceRank) ∧
      r.extractedSections.length ≤ 15 ∧
      r.subSectionAnalysis.length ≤ 20 ∧
      ∀ v : ℤ, (r.extractedSections.filter fun s => decide (s.importanceRank = v)) <+:
        ((pooledSections files persona jobToBeDone).filter
          fun s => decide (s.importanceRank = v)) := by
  simp only [analyzeDocumentsForPersona] at h
  match hseq : seqE (files.map (processDoc · persona jobToBeDone)) with
  | .error e => rw [hseq] at h; cases h
  | .ok rs =>
    rw [hseq] at h
    injection h with h
    have hsec : r.extractedSections =
        (sSortBy (fun s => -s.importanceRank) ((rs.map (·.1)).flatten)).take 15 := by
      rw [← h]
    have hsub : r.subSectionAnalysis = (((rs.map (·.2)).flatten).map (·.1)).take 20 := by
      rw [← h]
    have hpool : pooledSections files persona jobToBeDone = (rs.map (·.1)).flatten := by
      simp only [pooledSections, hseq]
    refine ⟨?_, ?_, ?_, ?_⟩
    · rw [hsec]
      have hs := sSortBy_sorted (fun s : ExtractedSection => -s.importanceRank)
        ((rs.map (·.1)).flatten)
      have := List.Pairwise.sublist (List.take_sublist 15 _) hs
      exact this.imp fun hab => neg_le_neg_iff.1 hab
    · rw [hsec]; exact List.length_take_le 15 _
    · rw [hsub]; exact List.length_take_le 20 _
    · intro v
      have hcong : ∀ (l : List ExtractedSection),
          (l.filter fun s => decide (s.importanceRank = v)) =
            (l.filter fun s => decide ((fun t : ExtractedSection => -t.importanceRank) s = -v)) := by
        intro l
        refine List.filter_congr ?_
        intro s _
        exact decide_eq_decide.2 neg_inj.symm
      rw [hsec, hpool, hcong, hcong]
      rw [← sSortBy_filter_eq (fun s : ExtractedSection => -s.importanceRank) (-v)
        ((rs.map (·.1)).flatten)]
      refine ⟨((sSortBy (fun s : ExtractedSection => -s.importanceRank)
        ((rs.map (·.1)).flatten)).drop 15).filter
          (fun s => decide ((fun t : ExtractedSection => -t.importanceRank) s = -v)), ?_⟩
      rw [← List.filter_append, List.take_append_drop]

/-- Witness for `c6_sorted_and_capped` at the concrete document `fLow`, with
the tie-order conjunct instantiated at rank 6. -/
theorem c6_witness :
    rFLow.extractedSections.Pairwise (fun a b => b.importanceRank ≤ a.importanceRank) ∧
      rFLow.extractedSections.length ≤ 15 ∧
      rFLow.subSectionAnalysis.length ≤ 20 ∧
      (rFLow.extractedSections.filter fun s => decide (s.importanceRank = 6)) <+:
        ((pooledSections [fLow] "a".toList "zzz".toList).filter
          fun s => decide (s.importanceRank = 6)) :=
  have happ := c6_sorted_and_capped [fLow] "a".toList "zzz".toList rFLow (by decide)
  ⟨happ.1, happ.2.1, happ.2.2.1, happ.2.2.2 6⟩

/-! ## Claim C9: importanceRank is round(10 × score) and lies in [0, 10] -/

/-- Every section a page contributes has an `importanceRank` derived by
rounding ten times the relevance score of some text that scored above the
0.2 gate. -/
theorem mem_processPage_rank (docName : List Char) (pageNum : Nat)
    (items : List TextItem) (persona jobToBeDone : List Char) (s : ExtractedSection)
    (hs : s ∈ (processPage docName pageNum items persona jobToBeDone).1) :
    ∃ t : List Char, (0.2 : ℚ) < calculateEnhancedRelevanceScore t persona jobToBeDone ∧
      s.importanceRank = jsRound (calculateEnhancedRelevanceScore t persona jobToBeDone * 10) := by
  simp only [processPage] at hs
  split at hs
  · simp at hs
  · simp only [List.mem_flatten, List.mem_map] at hs
    obtain ⟨l, ⟨pr2, ⟨pr, hpr, rfl⟩, rfl⟩, hsl⟩ := hs
    split at hsl
    · rename_i hgt
      simp only [List.mem_singleton] at hsl
      subst hsl
      exact ⟨pr.2.text, hgt, rfl⟩
    · simp at hsl

/-- Lift of `mem_processPage_rank` through a whole document. -/
theorem mem_processDoc_rank (f : AFile) (persona jobToBeDone : List Char)
    (pair : List ExtractedSection × List (SubSection × ℚ)) (s : ExtractedSection)
    (h : processDoc f persona jobToBeDone = .ok pair) (hs : s ∈ pair.1) :
    ∃ t : List Char, (0.2 : ℚ) < calculateEnhancedRelevanceScore t persona jobToBeDone ∧
      s.importanceRank = jsRound (calculateEnhancedRelevanceScore t persona jobToBeDone * 10) := by
  simp only [processDoc] at h
  match hc : f.content with
  | .error e => rw [hc] at h; cases h
  | .ok pages =>
    rw [hc] at h
    dsimp only at h
    match hsq : seqE (pages.take 15) with
    | .error e => rw [hsq] at h; cases h
    | .ok pageLists =>
      rw [hsq] at h
      injection h with h
      rw [← h] at hs
      simp only [List.mem_flatten, List.mem_map] at hs
      obtain ⟨l, ⟨pr2, ⟨pg, hpg, rfl⟩, rfl⟩, hsl⟩ := hs
      exact mem_processPage_rank f.name pg.1 pg.2 persona jobToBeDone s hsl

/-- Rounding ten times a `[0, 1]` quantity lands in `[0, 10]`. -/
theorem jsRound_scale_bounds {q : ℚ} (h0 : 0 ≤ q) (h1 : q ≤ 1) :
    0 ≤ jsRound (q * 10) ∧ jsRound (q * 10) ≤ 10 := by
  unfold jsRound
  constructor
  · exact Int.floor_nonneg.2 (by linarith)
  · calc ⌊q * 10 + 1/2⌋ ≤ ⌊(21 : ℚ)/2⌋ := Int.floor_le_floor (by linarith)
    _ = 10 := by decide

/-- **C9**: every extracted section's `importanceRank` is an integer in
`[0, 10]`, obtained by scaling a `[0, 1]` relevance score by 10 and rounding
(the score moreover cleared the 0.2 qualification gate). -/
theorem c9_rank_in_range (files : List AFile) (persona jobToBeDone : List Char)
    (r : PersonaAnalysis) (s : ExtractedSection)
    (h : analyzeDocumentsForPersona files persona jobToBeDone = .ok r)
    (hs : s ∈ r.extractedSections) :
    0 ≤ s.importanceRank ∧ s.importanceRank ≤ 10 ∧
      ∃ t : List Char, (0.2 : ℚ) < calculateEnhancedRelevanceScore t persona jobToBeDone ∧
        s.importanceRank = jsRound (calculateEnhancedRelevanceScore t persona jobToBeDone * 10) := by
  simp only [analyzeDocumentsForPersona] at h
  match hseq : seqE (files.map (processDoc · persona jobToBeDone)) with
  | .error e => rw [hseq] at h; cases h
  | .ok rs =>
    rw [hseq] at h
    injection h with h
    have hsec : r.extractedSections =
        (sSortBy (fun u => -u.importanceRank) ((rs.map (·.1)).flatten)).take 15 := by
      rw [← h]
    rw [hsec] at hs
    have hs2 := List.mem_of_mem_take hs
    have hs3 := ((sSortBy_perm (fun u : ExtractedSection => -u.importanceRank)
      ((rs.map (·.1)).flatten)).mem_iff).1 hs2
    simp only [List.mem_flatten, List.mem_map] at hs3
    obtain ⟨l, ⟨pair, hpair, rfl⟩, hsl⟩ := hs3
    have hok := seqE_ok_mem _ _ hseq pair hpair
    obtain ⟨f, hf, hpd⟩ := List.mem_map.1 hok
    obtain ⟨t, hgt, hrank⟩ := mem_processDoc_rank f persona jobToBeDone pair s hpd hsl
    have hb := relevanceScore_bounds t persona jobToBeDone
    have hr := jsRound_scale_bounds hb.1 hb.2
    rw [hrank]
    exact ⟨hr.1, hr.2, t, hgt, rfl⟩

/-- Witness for `c9_rank_in_range`: the concrete section `secLow` (rank 6)
returned for the document `fLow`. -/
theorem c9_witness :
    0 ≤ secLow.importanceRank ∧ secLow.importanceRank ≤ 10 ∧
      ∃ t : List Char, (0.2 : ℚ) < calculateEnhancedRelevanceScore t "a".toList "zzz".toList ∧
        secLow.importanceRank =
          jsRound (calculateEnhancedRelevanceScore t "a".toList "zzz".toList * 10) :=
  c9_rank_in_range [fLow] "a".toList "zzz".toList rFLow secLow (by decide) (by decide)

/-! ## Claim C2: which excerpts survive the cap -/

/-- **C2** is corrected by this counterexample: with 21 qualifying excerpts
(`files21`), the returned `subSectionAnalysis` is the first 20 in discovery
order, and the omitted 21st excerpt's section relevance (0.96) is strictly
higher than that of every included excerpt (0.6) — the pool is never sorted
by score, so the result is not the top-scoring selection. -/
theorem c2_counterexample :
    (pooledScoredSubs files21 "a".toList "zzz".toList).length = 21 ∧
      (analyzeDocumentsForPersona files21 "a".toList "zzz".toList).map
        (fun r => r.subSectionAnalysis) =
        .ok (((pooledScoredSubs files21 "a".toList "zzz".toList).map (·.1)).take 20) ∧
      ∃ inc ∈ (pooledScoredSubs files21 "a".toList "zzz".toList).take 20,
        ∃ om ∈ (pooledScoredSubs files21 "a".toList "zzz".toList).drop 20,
          inc.2 < om.2 :=
  ⟨by decide, by decide, by decide⟩

/-- **C2 (amended)**: `subSectionAnalysis` consists of the *first* qualifying
excerpts in discovery order (document order, then page order, then section
order), truncated to the cap of 20: it is a prefix of the pooled
discovery-order excerpt list, with no reordering by score. -/
theorem c2_amended_first_twenty (files : List AFile) (persona jobToBeDone : List Char)
    (r : PersonaAnalysis)
    (h : analyzeDocumentsForPersona files persona jobToBeDone = .ok r) :
    r.subSectionAnalysis =
      ((pooledScoredSubs files persona jobToBeDone).map (·.1)).take 20 ∧
      r.subSectionAnalysis <+: (pooledScoredSubs files persona jobToBeDone).map (·.1) ∧
      r.subSectionAnalysis.length ≤ 20 := by
  simp only [analyzeDocumentsForPersona] at h
  match hseq : seqE (files.map (processDoc · persona jobToBeDone)) with
  | .error e => rw [hseq] at h; cases h
  | .ok rs =>
    rw [hseq] at h
    injection h with h
    have hsub : r.subSectionAnalysis = (((rs.map (·.2)).flatten).map (·.1)).take 20 := by
      rw [← h]
    have hpool : pooledScoredSubs files persona jobToBeDone = (rs.map (·.2)).flatten := by
      simp only [pooledScoredSubs, hseq]
    refine ⟨by rw [hsub, hpool], ?_, by rw [hsub]; exact List.length_take_le 20 _⟩
    rw [hsub, hpool]
    exact ⟨(((rs.map (·.2)).flatten).map (·.1)).drop 20, List.take_append_drop _ _⟩

/-- Witness for `c2_amended_first_twenty` at the concrete document `fLow`. -/
theorem c2_amended_witness :
    rFLow.subSectionAnalysis =
      ((pooledScoredSubs [fLow] "a".toList "zzz".toList).map (·.1)).take 20 ∧
      rFLow.subSectionAnalysis <+: (pooledScoredSubs [fLow] "a".toList "zzz".toList).map (·.1) ∧
      rFLow.subSectionAnalysis.length ≤ 20 :=
  c2_amended_first_twenty [fLow] "a".toList "zzz".toList rFLow (by decide)

/-! ## Claim C5: appending a job keyword never decreases the score

The proof tracks four effects of appending `' ' :: kw` to the text: the word
count grows by at most one, every keyword's whole-word match count is
preserved (and `kw`'s grows by at least one), every context window only
extends on the right, and every professional-term test stays true.  The only
negative effect — density dilution by the larger word count — is always
outweighed by the new job-keyword match, or both sides are clamped at 1. -/

theorem isPre_iff : ∀ (k x : List Char), k.isPrefixOf x = true ↔ ∃ t, k ++ t = x
  | [], x => by simp [List.isPrefixOf]
  | _ :: _, [] => by simp [List.isPrefixOf]
  | a :: k, b :: x => by
    simp only [List.isPrefixOf, Bool.and_eq_true, beq_iff_eq]
    constructor
    · rintro ⟨rfl, h⟩
      obtain ⟨t, rfl⟩ := (isPre_iff k x).1 h
      exact ⟨t, rfl⟩
    · rintro ⟨t, ht⟩
      injection ht with h1 h2
      exact ⟨h1, (isPre_iff k x).2 ⟨t, h2⟩⟩

theorem preOf_append (k x y : List Char) (h : k.isPrefixOf x = true) :
    k.isPrefixOf (x ++ y) = true := by
  obtain ⟨t, rfl⟩ := (isPre_iff k x).1 h
  exact (isPre_iff k _).2 ⟨t ++ y, by rw [List.append_assoc]⟩

theorem preOf_length (k x : List Char) (h : k.isPrefixOf x = true) :
    k.length ≤ x.length := by
  obtain ⟨t, rfl⟩ := (isPre_iff k x).1 h
  simp

theorem preOf_self (k y : List Char) : k.isPrefixOf (k ++ y) = true :=
  (isPre_iff k _).2 ⟨y, rfl⟩

theorem lowerChar_toNat (c : Char) (h : 65 ≤ c.toNat ∧ c.toNat ≤ 90) :
    (lowerChar c).toNat = c.toNat + 32 := by
  unfold lowerChar
  rw [dif_pos h]
  simp [Char.ofNatAux, Char.toNat, UInt32.toNat, UInt32.ofNatCore]

theorem lowerChar_idem (c : Char) : lowerChar (lowerChar c) = lowerChar c := by
  by_cases h : 65 ≤ c.toNat ∧ c.toNat ≤ 90
  · have ht : (lowerChar c).toNat = c.toNat + 32 := lowerChar_toNat c h
    unfold lowerChar
    rw [dif_pos h]
    rw [dif_neg]
    unfold lowerChar at ht
    rw [dif_pos h] at ht
    omega
  · unfold lowerChar
    rw [dif_neg h, dif_neg h]

theorem lowerChar_space : lowerChar ' ' = ' ' := by decide

theorem wordChar_not_ws (c : Char) (h : isWordChar c = true) : isWs c = false := by
  simp only [isWordChar, Bool.or_eq_true, Bool.and_eq_true, decide_eq_true_eq,
    beq_iff_eq] at h
  simp only [isWs, Bool.or_eq_false_iff, beq_eq_false_iff_ne, ne_eq]
  omega

theorem mapFix {α : Type} (f : α → α) (l : List α) (h : ∀ c ∈ l, f c = c) :
    l.map f = l := by
  induction l with
  | nil => rfl
  | cons x xs ih =>
    simp only [List.map_cons, h x (List.mem_cons_self x xs)]
    rw [ih fun c hc => h c (List.mem_cons_of_mem x hc)]

theorem keyword_length (s kw : List Char) (h : kw ∈ extractKeywords s) :
    2 < kw.length := by
  simp only [extractKeywords, List.mem_filter, decide_eq_true_eq] at h
  exact h.2

theorem keyword_wordchars (s kw : List Char) (h : kw ∈ extractKeywords s) :
    ∀ c ∈ kw, isWordChar c = true := by
  simp only [extractKeywords, List.mem_filter, List.mem_map] at h
  obtain ⟨⟨w, hw, rfl⟩, _⟩ := h
  intro c hc
  exact (List.mem_filter.1 hc).2

theorem keyword_ne_nil (s kw : List Char) (h : kw ∈ extractKeywords s) : kw ≠ [] := by
  have := keyword_length s kw h
  intro hc
  rw [hc] at this
  simp at this

theorem mem_splitRunsGo_subset (p : Char → Bool) :
    ∀ (l : List Char) (st : Option (List Char)) (w : List Char),
    w ∈ splitRunsGo p l st → ∀ c ∈ w, c ∈ l ∨ ∃ acc, st = some acc ∧ c ∈ acc := by
  intro l
  induction l with
  | nil =>
    intro st w hw c hc
    match st with
    | none =>
      simp only [splitRunsGo, List.mem_singleton] at hw
      subst hw
      cases hc
    | some acc =>
      simp only [splitRunsGo, List.mem_singleton] at hw
      subst hw
      exact Or.inr ⟨acc, rfl, List.mem_reverse.1 hc⟩
  | cons c0 cs ih =>
    intro st w hw c hc
    match st with
    | none =>
      simp only [splitRunsGo] at hw
      by_cases hp : p c0
      · rw [if_pos hp] at hw
        rcases ih none w hw c hc with h | ⟨acc, hacc, _⟩
        · exact Or.inl (List.mem_cons_of_mem _ h)
        · cases hacc
      · rw [if_neg hp] at hw
        rcases ih (some [c0]) w hw c hc with h | ⟨acc, hacc, hcacc⟩
        · exact Or.inl (List.mem_cons_of_mem _ h)
        · injection hacc with hacc
          rw [← hacc] at hcacc
          simp only [List.mem_singleton] at hcacc
          exact Or.inl (hcacc ▸ List.mem_cons_self _ _)
    | some acc =>
      simp only [splitRunsGo] at hw
      by_cases hp : p c0
      · rw [if_pos hp] at hw
        rcases List.mem_cons.1 hw with rfl | hw2
        · exact Or.inr ⟨acc, rfl, List.mem_reverse.1 hc⟩
        · rcases ih none w hw2 c hc with h | ⟨acc', hacc, _⟩
          · exact Or.inl (List.mem_cons_of_mem _ h)
          · cases hacc
      · rw [if_neg hp] at hw
        rcases ih (some (c0 :: acc)) w hw c hc with h | ⟨acc', hacc, hcacc⟩
        · exact Or.inl (List.mem_cons_of_mem _ h)
        · injection hacc with hacc
          rw [← hacc] at hcacc
          rcases List.mem_cons.1 hcacc with rfl | hin
          · exact Or.inl (List.mem_cons_self _ _)
          · exact Or.inr ⟨acc, rfl, hin⟩

theorem keyword_chars_in_text (s kw : List Char) (h : kw ∈ extractKeywords s) :
    ∀ c ∈ kw, c ∈ s := by
  simp only [extractKeywords, List.mem_filter, List.mem_map] at h
  obtain ⟨⟨w, hw, rfl⟩, _⟩ := h
  intro c hc
  have hcw : c ∈ w := List.mem_of_mem_filter hc
  have := mem_splitRunsGo_subset isWs s (some []) w (by simpa [splitRuns] using hw.1) c hcw
  rcases this with h | ⟨acc, hacc, hm⟩
  · exact h
  · injection hacc with hacc
    rw [← hacc] at hm
    cases hm

theorem keyword_lower_fixed (s kw : List Char)
    (h : kw ∈ extractKeywords (lowerStr s)) : lowerStr kw = kw := by
  apply mapFix
  intro c hc
  obtain ⟨c0, _, rfl⟩ := List.mem_map.1 (keyword_chars_in_text _ _ h c hc)
  exact lowerChar_idem c0

theorem splitRunsGo_length_pos (p : Char → Bool) :
    ∀ (l : List Char) (st : Option (List Char)), 1 ≤ (splitRunsGo p l st).length := by
  intro l
  induction l with
  | nil => intro st; match st with
    | none => simp [splitRunsGo]
    | some acc => simp [splitRunsGo]
  | cons c cs ih =>
    intro st
    match st with
    | none =>
      simp only [splitRunsGo]
      by_cases hp : p c
      · rw [if_pos hp]; exact ih none
      · rw [if_neg hp]; exact ih (some [c])
    | some acc =>
      simp only [splitRunsGo]
      by_cases hp : p c
      · rw [if_pos hp]; simp
      · rw [if_neg hp]; exact ih (some (c :: acc))

theorem splitRunsGo_all_notp (p : Char → Bool) (l : List Char)
    (h : ∀ c ∈ l, p c = false) :
    ∀ acc, splitRunsGo p l (some acc) = [acc.reverse ++ l] := by
  induction l with
  | nil => intro acc; simp [splitRunsGo]
  | cons c cs ih =>
    intro acc
    have hc : p c = false := h c (List.mem_cons_self _ _)
    simp only [splitRunsGo, hc, Bool.false_eq_true, if_false]
    rw [ih (fun d hd => h d (List.mem_cons_of_mem _ hd)) (c :: acc)]
    simp

/-- Appending a separator and one separator-free fragment to a string leaves
the fragment count unchanged (when the string ends inside a separator run) or
raises it by exactly one. -/
theorem splitRunsGo_append_len (p : Char → Bool) (d : Char) (hd : p d = true)
    (ks : List Char) (hks : ∀ c ∈ ks, p c = false) (hne : ks ≠ []) :
    ∀ (l : List Char) (st : Option (List Char)),
    (splitRunsGo p (l ++ d :: ks) st).length = (splitRunsGo p l st).length ∨
      (splitRunsGo p (l ++ d :: ks) st).length = (splitRunsGo p l st).length + 1 := by
  intro l
  induction l with
  | nil =>
    intro st
    have hgo : splitRunsGo p ks none = [ks] := by
      match ks, hne with
      | k0 :: krest, _ =>
        have hk0 : p k0 = false := hks k0 (List.mem_cons_self _ _)
        simp only [splitRunsGo, hk0, Bool.false_eq_true, if_false]
        rw [splitRunsGo_all_notp p krest
          (fun c hc => hks c (List.mem_cons_of_mem _ hc)) [k0]]
        simp
    match st with
    | none =>
      refine Or.inl ?_
      simp only [List.nil_append, splitRunsGo, hd, if_true, hgo]
      simp [splitRunsGo]
    | some acc =>
      refine Or.inr ?_
      simp only [List.nil_append, splitRunsGo, hd, if_true, hgo]
      simp [splitRunsGo]
  | cons c cs ih =>
    intro st
    match st with
    | none =>
      simp only [List.cons_append, splitRunsGo]
      by_cases hp : p c
      · rw [if_pos hp, if_pos hp]; exact ih none
      · rw [if_neg hp, if_neg hp]; exact ih (some [c])
    | some acc =>
      simp only [List.cons_append, splitRunsGo]
      by_cases hp : p c
      · rw [if_pos hp, if_pos hp]
        rcases ih none with h | h
        · exact Or.inl (by simp [h])
        · exact Or.inr (by simp [h])
      · rw [if_neg hp, if_neg hp]; exact ih (some (c :: acc))

/-! Occurrence-count lemmas. -/

theorem isOccAt_bound (t k : List Char) (i : Nat) (hk : k ≠ [])
    (hpre : k.isPrefixOf (t.drop i) = true) : i + k.length ≤ t.length := by
  have h1 := preOf_length k (t.drop i) hpre
  simp only [List.length_drop] at h1
  have h2 : i ≤ t.length := by
    by_contra hc
    push_neg at hc
    rw [List.drop_eq_nil_of_le (le_of_lt hc)] at hpre
    cases k with
    | nil => exact hk rfl
    | cons k0 krest => simp [List.isPrefixOf] at hpre
  have h3 : 1 ≤ k.length := by
    cases k with
    | nil => exact absurd rfl hk
    | cons k0 krest => simp
  omega

theorem isOccAt_append (t k : List Char) (hk : k ≠ []) (r : List Char) (i : Nat)
    (hrh : isWordChar (r.headD ' ') = false)
    (h : isOccAt t k i = true) : isOccAt (t ++ r) k i = true := by
  simp only [isOccAt, Bool.and_eq_true, Bool.or_eq_true] at h ⊢
  obtain ⟨⟨hpre, hleft⟩, hright⟩ := h
  have hbound : i + k.length ≤ t.length := isOccAt_bound t k i hk hpre
  have hklen : 1 ≤ k.length := by
    cases k with
    | nil => exact absurd rfl hk
    | cons k0 krest => simp
  refine ⟨⟨?_, ?_⟩, ?_⟩
  · rw [List.drop_append_of_le_length (by omega)]
    exact preOf_append _ _ _ hpre
  · rcases hleft with h0 | hw
    · exact Or.inl h0
    · refine Or.inr ?_
      rwa [List.getD_append _ _ _ _ (by omega)]
  · rcases Nat.lt_or_ge (i + k.length) t.length with hlt | hge
    · -- the match ends strictly inside the old text: its right neighbour is
      -- unchanged by the append
      rcases hright with hle | hw
      · simp only [decide_eq_true_eq] at hle
        omega
      · refine Or.inr ?_
        rwa [List.getD_append _ _ _ _ hlt]
    · -- the match ended exactly at the old end of the text; the character now
      -- following it is the head of `r`, which is not a word character
      have hii : i + k.length = t.length := by omega
      match r with
      | [] =>
        refine Or.inl ?_
        simp only [decide_eq_true_eq, List.append_nil]
        omega
      | r0 :: rrest =>
        refine Or.inr ?_
        have hg : (t ++ r0 :: rrest).getD (i + k.length) ' ' = r0 := by
          rw [hii, List.getD_append_right _ _ _ _ (le_refl _)]
          simp [List.getD]
        rw [hg]
        simp only [Bool.not_eq_true']
        simpa using hrh

/-- The appended keyword itself is a fresh whole-word match at position
`t.length + 1`. -/
theorem isOccAt_new (t kw : List Char) :
    isOccAt (t ++ ' ' :: kw) kw (t.length + 1) = true := by
  simp only [isOccAt, Bool.and_eq_true, Bool.or_eq_true]
  refine ⟨⟨?_, ?_⟩, ?_⟩
  · have hdrop : (t ++ ' ' :: kw).drop (t.length + 1) = kw := by
      rw [show t ++ ' ' :: kw = (t ++ [' ']) ++ kw by simp]
      have hlen : t.length + 1 = (t ++ [' ']).length := by simp
      rw [hlen, List.drop_left]
    rw [hdrop]
    have hps := preOf_self kw []
    rw [List.append_nil] at hps
    exact hps
  · refine Or.inr ?_
    have hg : (t ++ ' ' :: kw).getD t.length ' ' = ' ' := by
      rw [List.getD_append_right _ _ _ _ (le_refl _)]
      simp [List.getD]
    simp only [Nat.add_sub_cancel, hg]
    decide
  · refine Or.inl ?_
    simp only [decide_eq_true_eq, List.length_append, List.length_cons]
    omega

theorem countOcc_append_ge (t k : List Char) (hk : k ≠ [])
    (r : List Char) (hrh : isWordChar (r.headD ' ') = false) :
    countOcc t k ≤ countOcc (t ++ r) k := by
  unfold countOcc occPositions
  rw [← List.countP_eq_length_filter, ← List.countP_eq_length_filter]
  have hsplit : (t ++ r).length + 1 = (t.length + 1) + r.length := by
    simp only [List.length_append]
    omega
  have hnew : List.countP (fun i => isOccAt (t ++ r) k i) (List.range ((t ++ r).length + 1)) =
      List.countP (fun i => isOccAt (t ++ r) k i) (List.range (t.length + 1)) +
        List.countP (fun i => isOccAt (t ++ r) k i)
          ((List.range r.length).map fun x => (t.length + 1) + x) := by
    rw [hsplit, List.range_add, List.countP_append]
  have h1 : List.countP (fun i => isOccAt t k i) (List.range (t.length + 1))
      ≤ List.countP (fun i => isOccAt (t ++ r) k i) (List.range (t.length + 1)) :=
    List.countP_mono_left fun i _ hi => isOccAt_append t k hk r i hrh hi
  rw [hnew]
  omega

theorem countOcc_append_succ (t kw : List Char) (hk : kw ≠ []) :
    countOcc t kw + 1 ≤ countOcc (t ++ ' ' :: kw) kw := by
  unfold countOcc occPositions
  rw [← List.countP_eq_length_filter, ← List.countP_eq_length_filter]
  have hsplit : (t ++ ' ' :: kw).length + 1 = (t.length + 1) + (kw.length + 1) := by
    simp only [List.length_append, List.length_cons]
    omega
  have hnew : List.countP (fun i => isOccAt (t ++ ' ' :: kw) kw i)
      (List.range ((t ++ ' ' :: kw).length + 1)) =
      List.countP (fun i => isOccAt (t ++ ' ' :: kw) kw i) (List.range (t.length + 1)) +
        List.countP (fun i => isOccAt (t ++ ' ' :: kw) kw i)
          ((List.range (kw.length + 1)).map fun x => (t.length + 1) + x) := by
    rw [hsplit, List.range_add, List.countP_append]
  have h1 : List.countP (fun i => isOccAt t kw i) (List.range (t.length + 1))
      ≤ List.countP (fun i => isOccAt (t ++ ' ' :: kw) kw i) (List.range (t.length + 1)) :=
    List.countP_mono_left fun i _ hi =>
      isOccAt_append t kw hk (' ' :: kw) i (show isWordChar ' ' = false by decide) hi
  have h2 : 0 < List.countP (fun i => isOccAt (t ++ ' ' :: kw) kw i)
      ((List.range (kw.length + 1)).map fun x => (t.length + 1) + x) := by
    refine List.countP_pos_iff.2 ⟨t.length + 1, ?_, isOccAt_new t kw⟩
    refine List.mem_map.2 ⟨0, ?_, by omega⟩
    simp
  rw [hnew]
  omega

/-- A shorter take is a prefix of a longer take. -/
theorem takeLe_pre {α : Type} (l : List α) (m m' : Nat) (h : m ≤ m') :
    l.take m <+: l.take m' := by
  refine ⟨(l.take m').drop m, ?_⟩
  have hface : List.take m (List.take m' l) = List.take m l := by
    rw [List.take_take]
    congr 1
    omega
  conv_rhs => rw [← List.take_append_drop m (l.take m')]
  rw [hface]

theorem pre_map {α β : Type} (f : α → β) {x y : List α} (h : x <+: y) :
    x.map f <+: y.map f := by
  obtain ⟨t, rfl⟩ := h
  exact ⟨t.map f, by rw [← List.map_append]⟩

/-- Appending text only extends a context window on the right. -/
theorem ctxWindow_pre (t r k : List Char) (i : Nat) (hi : i ≤ t.length) :
    ctxWindow t k i <+: ctxWindow (t ++ r) k i := by
  unfold ctxWindow strSlice lowerStr
  apply pre_map
  have ha : i - 100 ≤ t.length := le_trans (Nat.sub_le i 100) hi
  rw [List.drop_append_of_le_length ha]
  have h1 : min t.length (i + k.length + 100) - (i - 100) ≤ (t.drop (i - 100)).length := by
    simp only [List.length_drop]
    omega
  have h2 : min t.length (i + k.length + 100) - (i - 100) ≤
      min (t ++ r).length (i + k.length + 100) - (i - 100) := by
    simp only [List.length_append]
    omega
  rw [← List.take_append_of_le_length h1]
  exact takeLe_pre _ _ _ h2

theorem containsSub_mono (w w' o : List Char) (h : w <+: w')
    (hc : containsSub w o = true) : containsSub w' o = true := by
  obtain ⟨t, rfl⟩ := h
  simp only [containsSub, List.any_eq_true] at hc ⊢
  obtain ⟨i, hir, hp⟩ := hc
  have hi : i ≤ w.length := by
    simp only [List.mem_range] at hir
    omega
  refine ⟨i, ?_, ?_⟩
  · simp only [List.mem_range, List.length_append] at hir ⊢
    omega
  · rw [List.drop_append_of_le_length hi]
    exact preOf_append _ _ _ hp

theorem sum_filter_mono (l : List Nat) (p q : Nat → Bool) (f g : Nat → ℚ)
    (himp : ∀ i ∈ l, p i = true → q i = true)
    (hfg : ∀ i ∈ l, p i = true → f i ≤ g i)
    (hg : ∀ i, 0 ≤ g i) :
    ((l.filter p).map f).sum ≤ ((l.filter q).map g).sum := by
  induction l with
  | nil => simp
  | cons x xs ih =>
    have ih' := ih (fun i hi => himp i (List.mem_cons_of_mem _ hi))
      (fun i hi => hfg i (List.mem_cons_of_mem _ hi))
    by_cases hp : p x
    · have hq := himp x (List.mem_cons_self _ _) hp
      simp only [List.filter_cons, hp, hq, if_true, List.map_cons, List.sum_cons]
      exact add_le_add (hfg x (List.mem_cons_self _ _) hp) ih'
    · by_cases hq : q x
      · simp only [List.filter_cons, hp, hq, Bool.false_eq_true, if_false, if_true,
          List.map_cons, List.sum_cons]
        exact le_trans ih' (le_add_of_nonneg_left (hg x))
      · simp only [List.filter_cons, hp, hq, Bool.false_eq_true, if_false]
        exact ih'

/-- Appending text never lowers a keyword's context bonus: every old match
position survives, and every old window is a prefix of the new one. -/
theorem ctxBonus_append_mono (t k : List Char) (hk : k ≠ [])
    (r : List Char) (hrh : isWordChar (r.headD ' ') = false)
    (allKeywords : List (List Char)) :
    calculateContextBonus t k allKeywords ≤ calculateContextBonus (t ++ r) k allKeywords := by
  unfold calculateContextBonus
  refine min_le_min ?_ (le_refl _)
  refine mul_le_mul_of_nonneg_left ?_ (by norm_num)
  unfold occPositions
  have hsplit : (t ++ r).length + 1 = (t.length + 1) + r.length := by
    simp only [List.length_append]
    omega
  have hnew : List.filter (fun i => isOccAt (t ++ r) k i) (List.range ((t ++ r).length + 1)) =
      List.filter (fun i => isOccAt (t ++ r) k i) (List.range (t.length + 1)) ++
        List.filter (fun i => isOccAt (t ++ r) k i)
          ((List.range r.length).map fun x => (t.length + 1) + x) := by
    rw [hsplit, List.range_add, List.filter_append]
  rw [hnew, List.map_append, List.sum_append]
  have hmain : ((List.filter (fun i => isOccAt t k i) (List.range (t.length + 1))).map
      fun i => ((allKeywords.filter fun o =>
        !(o == k) && containsSub (ctxWindow t k i) o).length : ℚ)).sum ≤
      ((List.filter (fun i => isOccAt (t ++ r) k i) (List.range (t.length + 1))).map
      fun i => ((allKeywords.filter fun o =>
        !(o == k) && containsSub (ctxWindow (t ++ r) k i) o).length : ℚ)).sum := by
    refine sum_filter_mono _ _ _ _ _
      (fun i _ hi => isOccAt_append t k hk r i hrh hi) ?_ (fun i => by positivity)
    intro i hi _
    have hile : i ≤ t.length := by
      simp only [List.mem_range] at hi
      omega
    have hwin := ctxWindow_pre t r k i hile
    refine Nat.cast_le.2 ?_
    rw [← List.countP_eq_length_filter, ← List.countP_eq_length_filter]
    refine List.countP_mono_left ?_
    intro o _ ho
    simp only [Bool.and_eq_true] at ho ⊢
    exact ⟨ho.1, containsSub_mono _ _ o hwin ho.2⟩
  refine le_trans hmain (le_add_of_nonneg_right ?_)
  refine List.sum_nonneg ?_
  intro x hx
  obtain ⟨i, _, rfl⟩ := List.mem_map.1 hx
  positivity

theorem profSum_append_mono (t r : List Char) :
    ((professionalTerms.map fun term =>
      if containsSub t term then (0.1 : ℚ) else 0)).sum ≤
      ((professionalTerms.map fun term =>
        if containsSub (t ++ r) term then (0.1 : ℚ) else 0)).sum := by
  refine List.sum_le_sum ?_
  intro term _
  by_cases h : containsSub t term = true
  · rw [if_pos h, if_pos (containsSub_mono t (t ++ r) term ⟨r, rfl⟩ h)]
  · rw [if_neg h]
    split <;> norm_num

theorem sum_ite_add {α : Type} (l : List α) (P : α → Prop) [DecidablePred P]
    (A B : α → ℚ) :
    (l.map fun k => if P k then A k + B k else 0).sum =
      (l.map fun k => if P k then A k else 0).sum +
        (l.map fun k => if P k then B k else 0).sum := by
  induction l with
  | nil => simp
  | cons x xs ih =>
    simp only [List.map_cons, List.sum_cons, ih]
    by_cases h : P x
    · simp only [if_pos h]
      ring
    · simp only [if_neg h]
      ring

theorem sum_ite_div {α : Type} (l : List α) (P : α → Prop) [DecidablePred P]
    (F : α → ℚ) (n w : ℚ) :
    (l.map fun k => if P k then F k / n * w else 0).sum =
      (l.map fun k => if P k then F k else 0).sum / n * w := by
  induction l with
  | nil => simp
  | cons x xs ih =>
    simp only [List.map_cons, List.sum_cons, ih]
    by_cases h : P x
    · simp only [if_pos h]
      ring
    · simp only [if_neg h]
      ring

theorem mass_sum_mono (lst : List (List Char)) (t r : List Char)
    (hrh : isWordChar (r.headD ' ') = false) :
    (lst.map fun k => if 2 < k.length then (countOcc t k : ℚ) else 0).sum ≤
      (lst.map fun k => if 2 < k.length then (countOcc (t ++ r) k : ℚ) else 0).sum := by
  refine List.sum_le_sum ?_
  intro k _
  by_cases h : 2 < k.length
  · simp only [if_pos h]
    have hne : k ≠ [] := by
      intro hc
      rw [hc] at h
      simp at h
    exact_mod_cast countOcc_append_ge t k hne r hrh
  · simp [h]

theorem mass_sum_succ (lst : List (List Char)) (t kw : List Char)
    (hmem : kw ∈ lst) (hlen : 2 < kw.length) :
    (lst.map fun k => if 2 < k.length then (countOcc t k : ℚ) else 0).sum + 1 ≤
      (lst.map fun k => if 2 < k.length then (countOcc (t ++ ' ' :: kw) k : ℚ) else 0).sum := by
  obtain ⟨s1, s2, rfl⟩ := List.append_of_mem hmem
  have hrh : isWordChar ((' ' :: kw).headD ' ') = false :=
    show isWordChar ' ' = false by decide
  have h1 := mass_sum_mono s1 t (' ' :: kw) hrh
  have h2 := mass_sum_mono s2 t (' ' :: kw) hrh
  have hne : kw ≠ [] := by
    intro hc
    rw [hc] at hlen
    simp at hlen
  have h3 : (countOcc t kw : ℚ) + 1 ≤ (countOcc (t ++ ' ' :: kw) kw : ℚ) := by
    exact_mod_cast countOcc_append_succ t kw hne
  simp only [List.map_append, List.map_cons, List.sum_append, List.sum_cons,
    if_pos hlen]
  linarith

/-- The clamp arithmetic: a density loss from one extra word is always repaid
by the new job-keyword match, or both sides are already clamped at 1. -/
theorem clamp_mono (Mp Mj Mp' Mj' B B' : ℚ) (n n' : ℕ)
    (hn : 1 ≤ n) (hn' : n' = n ∨ n' = n + 1)
    (hMp : Mp ≤ Mp') (hMj : Mj + 1 ≤ Mj')
    (hB : 0 ≤ B) (hBB : B ≤ B') :
    min (Mp / n * 0.8 + Mj / n * 1.2 + B) 1 ≤
      min (Mp' / n' * 0.8 + Mj' / n' * 1.2 + B') 1 := by
  have hnQ : (0 : ℚ) < n := by
    have : (1 : ℚ) ≤ n := by exact_mod_cast hn
    linarith
  rcases hn' with rfl | rfl
  · refine min_le_min ?_ (le_refl 1)
    have hMj2 : Mj ≤ Mj' := by linarith
    gcongr
  · have hcast : ((n + 1 : ℕ) : ℚ) = (n : ℚ) + 1 := by push_cast; ring
    have hM' : 0.8 * Mp + 1.2 * Mj + 1.2 ≤ 0.8 * Mp' + 1.2 * Mj' := by linarith
    by_cases hM : 0.8 * Mp + 1.2 * Mj ≤ 1.2 * n
    · refine min_le_min ?_ (le_refl 1)
      have e1 : Mp / n * 0.8 + Mj / n * 1.2 = (0.8 * Mp + 1.2 * Mj) / n := by ring
      have e2 : Mp' / ((n : ℚ) + 1) * 0.8 + Mj' / ((n : ℚ) + 1) * 1.2 =
          (0.8 * Mp' + 1.2 * Mj') / ((n : ℚ) + 1) := by ring
      rw [hcast, e1, e2]
      have hstep : (0.8 * Mp + 1.2 * Mj) / n ≤ (0.8 * Mp' + 1.2 * Mj') / ((n : ℚ) + 1) := by
        rw [div_le_div_iff₀ hnQ (by linarith)]
        nlinarith [mul_le_mul_of_nonneg_right hM' hnQ.le, hM]
      linarith [hstep, hBB]
    · push_neg at hM
      rw [hcast]
      have hinner : (1 : ℚ) ≤ Mp' / ((n : ℚ) + 1) * 0.8 + Mj' / ((n : ℚ) + 1) * 1.2 + B' := by
        have e2 : Mp' / ((n : ℚ) + 1) * 0.8 + Mj' / ((n : ℚ) + 1) * 1.2 =
            (0.8 * Mp' + 1.2 * Mj') / ((n : ℚ) + 1) := by ring
        have hnum : 1.2 * ((n : ℚ) + 1) ≤ 0.8 * Mp' + 1.2 * Mj' := by linarith
        have hq : (1.2 : ℚ) ≤ (0.8 * Mp' + 1.2 * Mj') / ((n : ℚ) + 1) := by
          rw [le_div_iff₀ (by linarith)]
          linarith
        have hB2 : 0 ≤ B' := le_trans hB hBB
        rw [e2]
        linarith
      calc min (Mp / ↑n * 0.8 + Mj / ↑n * 1.2 + B) 1 ≤ 1 := min_le_right _ _
        _ ≤ min (Mp' / ((n : ℚ) + 1) * 0.8 + Mj' / ((n : ℚ) + 1) * 1.2 + B') 1 :=
          le_min hinner (le_refl 1)

/-- `clamp_mono` restated in the exact associativity produced by splitting the
score into persona-density, persona-bonus, job-density, job-bonus and
professional-term parts. -/
theorem clamp_mono_parts (Mp Mj Mp' Mj' Bp Bj P Bp' Bj' P' : ℚ) (n n' : ℕ)
    (hn : 1 ≤ n) (hn' : n' = n ∨ n' = n + 1)
    (hMp : Mp ≤ Mp') (hMj : Mj + 1 ≤ Mj')
    (hBp : 0 ≤ Bp) (hBj : 0 ≤ Bj) (hP : 0 ≤ P)
    (hBp' : Bp ≤ Bp') (hBj' : Bj ≤ Bj') (hP' : P ≤ P') :
    min (Mp / n * 0.8 + Bp + (Mj / n * 1.2 + Bj) + P) 1 ≤
      min (Mp' / n' * 0.8 + Bp' + (Mj' / n' * 1.2 + Bj') + P') 1 := by
  have e1 : Mp / n * 0.8 + Bp + (Mj / n * 1.2 + Bj) + P =
      Mp / n * 0.8 + Mj / n * 1.2 + (Bp + (Bj + P)) := by ring
  have e2 : Mp' / n' * 0.8 + Bp' + (Mj' / n' * 1.2 + Bj') + P' =
      Mp' / n' * 0.8 + Mj' / n' * 1.2 + (Bp' + (Bj' + P')) := by ring
  rw [e1, e2]
  refine clamp_mono Mp Mj Mp' Mj' _ _ n n' hn hn' hMp hMj ?_ ?_
  · have := add_nonneg hBj hP
    linarith
  · linarith

/-- **C5**: appending one additional whole-word occurrence of a job keyword
to the text (separated by whitespace) never decreases the relevance score,
with the persona and job strings held fixed. -/
theorem c5_append_job_keyword_mono (text persona jobToBeDone kw : List Char)
    (hkw : kw ∈ extractKeywords (lowerStr jobToBeDone)) :
    calculateEnhancedRelevanceScore text persona jobToBeDone ≤
      calculateEnhancedRelevanceScore (text ++ ' ' :: kw) persona jobToBeDone := by
  have hklen := keyword_length _ _ hkw
  have hkwc := keyword_wordchars _ _ hkw
  have hkne := keyword_ne_nil _ _ hkw
  have hksnotws : ∀ c ∈ kw, isWs c = false := fun c hc => wordChar_not_ws c (hkwc c hc)
  have hrh : isWordChar ((' ' :: kw).headD ' ') = false :=
    show isWordChar ' ' = false by decide
  have hkwfix := keyword_lower_fixed _ _ hkw
  have hlow : lowerStr (text ++ ' ' :: kw) = lowerStr text ++ ' ' :: kw := by
    unfold lowerStr at hkwfix ⊢
    rw [List.map_append, List.map_cons, lowerChar_space, hkwfix]
  have hn1 : 1 ≤ (splitRuns isWs (lowerStr text)).length :=
    splitRunsGo_length_pos isWs (lowerStr text) (some [])
  have hnn : (splitRuns isWs (lowerStr text ++ ' ' :: kw)).length =
      (splitRuns isWs (lowerStr text)).length ∨
      (splitRuns isWs (lowerStr text ++ ' ' :: kw)).length =
        (splitRuns isWs (lowerStr text)).length + 1 :=
    splitRunsGo_append_len isWs ' ' (by decide) kw hksnotws hkne (lowerStr text) (some [])
  have hn'1 : 1 ≤ (splitRuns isWs (lowerStr text ++ ' ' :: kw)).length :=
    splitRunsGo_length_pos isWs _ (some [])
  simp only [calculateEnhancedRelevanceScore, hlow]
  rw [if_neg (by omega), if_neg (by omega)]
  rw [sum_ite_add (extractKeywords (lowerStr persona)) (fun k => 2 < k.length)
    (fun k => (countOcc (lowerStr text) k : ℚ) /
      ((splitRuns isWs (lowerStr text)).length : ℚ) * 0.8)
    (fun k => calculateContextBonus (lowerStr text) k
      (extractKeywords (lowerStr persona) ++ extractKeywords (lowerStr jobToBeDone)))]
  rw [sum_ite_add (extractKeywords (lowerStr persona)) (fun k => 2 < k.length)
    (fun k => (countOcc (lowerStr text ++ ' ' :: kw) k : ℚ) /
      ((splitRuns isWs (lowerStr text ++ ' ' :: kw)).length : ℚ) * 0.8)
    (fun k => calculateContextBonus (lowerStr text ++ ' ' :: kw) k
      (extractKeywords (lowerStr persona) ++ extractKeywords (lowerStr jobToBeDone)))]
  rw [sum_ite_add (extractKeywords (lowerStr jobToBeDone)) (fun k => 2 < k.length)
    (fun k => (countOcc (lowerStr text) k : ℚ) /
      ((splitRuns isWs (lowerStr text)).length : ℚ) * 1.2)
    (fun k => calculateContextBonus (lowerStr text) k
      (extractKeywords (lowerStr persona) ++ extractKeywords (lowerStr jobToBeDone)) * 1.2)]
  rw [sum_ite_add (extractKeywords (lowerStr jobToBeDone)) (fun k => 2 < k.length)
    (fun k => (countOcc (lowerStr text ++ ' ' :: kw) k : ℚ) /
      ((splitRuns isWs (lowerStr text ++ ' ' :: kw)).length : ℚ) * 1.2)
    (fun k => calculateContextBonus (lowerStr text ++ ' ' :: kw) k
      (extractKeywords (lowerStr persona) ++ extractKeywords (lowerStr jobToBeDone)) * 1.2)]
  rw [sum_ite_div (extractKeywords (lowerStr persona)) (fun k => 2 < k.length)
    (fun k => (countOcc (lowerStr text) k : ℚ))
    ((splitRuns isWs (lowerStr text)).length : ℚ) 0.8]
  rw [sum_ite_div (extractKeywords (lowerStr persona)) (fun k => 2 < k.length)
    (fun k => (countOcc (lowerStr text ++ ' ' :: kw) k : ℚ))
    ((splitRuns isWs (lowerStr text ++ ' ' :: kw)).length : ℚ) 0.8]
  rw [sum_ite_div (extractKeywords (lowerStr jobToBeDone)) (fun k => 2 < k.length)
    (fun k => (countOcc (lowerStr text) k : ℚ))
    ((splitRuns isWs (lowerStr text)).length : ℚ) 1.2]
  rw [sum_ite_div (extractKeywords (lowerStr jobToBeDone)) (fun k => 2 < k.length)
    (fun k => (countOcc (lowerStr text ++ ' ' :: kw) k : ℚ))
    ((splitRuns isWs (lowerStr text ++ ' ' :: kw)).length : ℚ) 1.2]
  refine clamp_mono_parts _ _ _ _ _ _ _ _ _ _ _ _ hn1 hnn ?_ ?_ ?_ ?_ ?_ ?_ ?_ ?_
  · exact mass_sum_mono _ (lowerStr text) (' ' :: kw) hrh
  · exact mass_sum_succ _ (lowerStr text) kw hkw hklen
  · refine List.sum_nonneg ?_
    intro x hx
    obtain ⟨k, _, rfl⟩ := List.mem_map.1 hx
    split
    · exact calculateContextBonus_nonneg _ _ _
    · exact le_refl 0
  · refine List.sum_nonneg ?_
    intro x hx
    obtain ⟨k, _, rfl⟩ := List.mem_map.1 hx
    split
    · have := calculateContextBonus_nonneg (lowerStr text) k
        (extractKeywords (lowerStr persona) ++ extractKeywords (lowerStr jobToBeDone))
      positivity
    · exact le_refl 0
  · refine List.sum_nonneg ?_
    intro x hx
    obtain ⟨term, _, rfl⟩ := List.mem_map.1 hx
    split <;> norm_num
  · refine List.sum_le_sum ?_
    intro k _
    by_cases h : 2 < k.length
    · simp only [if_pos h]
      refine ctxBonus_append_mono (lowerStr text) k ?_ (' ' :: kw) hrh _
      intro hc
      rw [hc] at h
      simp at h
    · simp [h]
  · refine List.sum_le_sum ?_
    intro k _
    by_cases h : 2 < k.length
    · simp only [if_pos h]
      refine mul_le_mul_of_nonneg_right ?_ (by norm_num)
      refine ctxBonus_append_mono (lowerStr text) k ?_ (' ' :: kw) hrh _
      intro hc
      rw [hc] at h
      simp at h
    · simp [h]
  · exact profSum_append_mono (lowerStr text) (' ' :: kw)

/-- Witness for `c5_append_job_keyword_mono` at a concrete keyword and text. -/
theorem c5_witness :
    "zzz".toList ∈ extractKeywords (lowerStr "zzz www".toList) ∧
      calculateEnhancedRelevanceScore "abc zzz".toList "a".toList "zzz www".toList ≤
        calculateEnhancedRelevanceScore ("abc zzz".toList ++ ' ' :: "zzz".toList)
          "a".toList "zzz www".toList :=
  ⟨by decide,
   c5_append_job_keyword_mono "abc zzz".toList "a".toList "zzz www".toList
     "zzz".toList (by decide)⟩
